import Mathlib

/-!
Verification of the MCPTOOL5 document-index core against its specification.

Each section shallowly embeds one part of the implementation:

* `Json` / `canonicalize` — the canonical codec (`src/core/audit/canonical.ts`,
  which delegates to `fast-json-stable-stringify`: keys sorted, no whitespace).
* the hybrid retrieval pipeline (`src/tools/retrieve_with_embeddings.ts`).
* the DAG commit operation (`src/core/store/git.ts`).
* the FTS maintenance-gate triggers (`src/core/store/db.ts`).
* the FTS tree builder preflight and gate-cleanup skeleton
  (`src/tools/build_fts_tree.ts`).
* the embeddings builder transaction (`build_embeddings`).
* the task creation tool (`src/tools/create_task.ts`).
* commit capture / checkout round trip
  (`src/tools/commit_index.ts`, `checkout_index`, `GitOps.materializeTree`).

SHA-256 and UUIDv5 are modelled as abstract function parameters: every
statement below holds for an arbitrary digest function, which is exactly the
strength the claims need (they are all about which bytes get hashed, not about
the digest itself).
-/

namespace Spec2Proof

/-! ## Canonical JSON codec (`src/core/audit/canonical.ts`)

`canonicalize` is `fast-json-stable-stringify`: object keys sorted
lexicographically, no insignificant whitespace.  The repository only ever
canonicalizes values built from strings, integers, booleans, `null`, arrays
and plain objects, which `Json` captures.  String escaping is modelled for the
quote and backslash characters; no value hashed by the repository contains a
control character. -/

inductive Json where
  | null : Json
  | bool (b : Bool) : Json
  | num (n : Int) : Json
  | str (s : String) : Json
  | arr (items : List Json) : Json
  | obj (fields : List (String × Json)) : Json
def escapeChar (c : Char) : String :=
  if c = '"' then "\\\"" else if c = '\\' then "\\\\" else String.singleton c

def jsonQuote (s : String) : String :=
  "\"" ++ String.join (s.data.map escapeChar) ++ "\""

/-- Lexicographic comparison of character lists: the string order used by the
JS runtime (code-unit order) and by SQLite's BINARY collation on the ASCII
identifiers this repository produces. -/
def charListLeB : List Char → List Char → Bool
  | [], _ => true
  | _ :: _, [] => false
  | a :: as, b :: bs => if a < b then true else if b < a then false else charListLeB as bs

/-- String comparison via `charListLeB`. -/
def strLeB (a b : String) : Bool := charListLeB a.data b.data

/-- Key order used by `fast-json-stable-stringify` when sorting object keys. -/
def fieldLe (a b : String × Json) : Prop := strLeB a.1 b.1 = true

instance : DecidableRel fieldLe := fun a b => by
  unfold fieldLe; infer_instance

def canonicalize : Json → String
  | .null => "null"
  | .bool b => if b then "true" else "false"
  | .num n => toString n
  | .str s => jsonQuote s
  | .arr items =>
      "[" ++ String.intercalate "," (items.attach.map (fun x => canonicalize x.1)) ++ "]"
  | .obj fields =>
      "\x7b" ++ String.intercalate ","
        ((fields.insertionSort fieldLe).attach.map
          (fun x => jsonQuote x.1.1 ++ ":" ++ canonicalize x.1.2)) ++ "\x7d"
termination_by j => sizeOf j
decreasing_by
  · have h := List.sizeOf_lt_of_mem x.2
    simp only [Json.arr.sizeOf_spec]
    omega
  · have hmem := (List.perm_insertionSort fieldLe _).mem_iff.mp x.2
    have h := List.sizeOf_lt_of_mem hmem
    rcases x with ⟨⟨k, v⟩, hx⟩
    simp only [Prod.mk.sizeOf_spec] at h
    simp only [Json.obj.sizeOf_spec]
    omega

/-! ## Hybrid retrieval (`src/tools/retrieve_with_embeddings.ts`)

Scores are modelled over `ℚ`; the ranking logic of the tool is arithmetic on
scores and is independent of the float representation.  The pipeline below is
the body of `RetrieveWithEmbeddingsTool.execute` from the point where the BM25
candidate rows (`store.search`, already ordered best-match-first) and the
per-chunk cosine scores have been computed. -/

/-- The running minimum of the `for` loop in `minMaxNorm`:
`if (v < min) min = v`. -/
def foldMin (vals : List ℚ) (a : ℚ) : ℚ :=
  vals.foldl (fun m v => if v < m then v else m) a

/-- The running maximum of the `for` loop in `minMaxNorm`:
`if (v > max) max = v`. -/
def foldMax (vals : List ℚ) (a : ℚ) : ℚ :=
  vals.foldl (fun m v => if m < v then v else m) a

/-- `minMaxNorm` (lines 8–14 of the tool). -/
def minMaxNorm (vals : List ℚ) : List ℚ :=
  match vals with
  | [] => []
  | v0 :: _ =>
    let mn := foldMin vals v0
    let mx := foldMax vals v0
    if mx = mn then vals.map (fun _ => 0)
    else vals.map (fun v => (v - mn) / (mx - mn))

/-- A candidate in the union keyed by `chunk_id` (lines 125–160).  Only the
fields the ranking touches are retained. -/
structure Cand where
  chunk_id : String
  bm25 : Option ℚ
  cos : Option ℚ
deriving Repr, DecidableEq

/-- A candidate after hybrid scoring (lines 169–175). -/
structure Scored where
  chunk_id : String
  bm25 : Option ℚ
  cos : Option ℚ
  bm25_norm : ℚ
  cos_norm : ℚ
  hybrid : ℚ
deriving Repr, DecidableEq

/-- Vector candidate order of line 121: cosine descending, `chunk_id`
ascending.  This is the program's own "pure cosine ranking". -/
def vecRank (a b : String × ℚ) : Prop :=
  b.2 < a.2 ∨ (a.2 = b.2 ∧ strLeB a.1 b.1 = true)

instance : DecidableRel vecRank := fun a b => by unfold vecRank; infer_instance

/-- `vecScores.sort(...).slice(0, vector_k)` (lines 121–122). -/
def vecTopK (vecScores : List (String × ℚ)) (vectorK : Nat) : List (String × ℚ) :=
  (vecScores.insertionSort vecRank).take vectorK

/-- One step of the vector-candidate merge into the `byId` map
(lines 141–160): update `cos` when the id is present, else append. -/
def addVecCand (acc : List Cand) (v : String × ℚ) : List Cand :=
  if acc.any (fun c => c.chunk_id == v.1) then
    acc.map (fun c => if c.chunk_id == v.1 then { c with cos := some v.2 } else c)
  else acc ++ [{ chunk_id := v.1, bm25 := none, cos := some v.2 }]

/-- The union of BM25 and vector candidates in JS `Map` insertion order
(lines 125–162). -/
def unionCands (bm25Rows vecTop : List (String × ℚ)) : List Cand :=
  vecTop.foldl addVecCand
    (bm25Rows.map (fun b => { chunk_id := b.1, bm25 := some b.2, cos := none }))

/-- Per-set normalization and hybrid scoring (lines 162–175): a missing
signal contributes `0` (`c.bm25 ?? 0`), both signal columns are min-max
normalized over the whole union, and
`hybrid = alpha * bm25_norm + (1 - alpha) * cos_norm`. -/
def scoreCands (alpha : ℚ) (cands : List Cand) : List Scored :=
  let bN := minMaxNorm (cands.map (fun c => c.bm25.getD 0))
  let cN := minMaxNorm (cands.map (fun c => c.cos.getD 0))
  (cands.zip (bN.zip cN)).map (fun p =>
    { chunk_id := p.1.chunk_id, bm25 := p.1.bm25, cos := p.1.cos,
      bm25_norm := p.2.1, cos_norm := p.2.2,
      hybrid := alpha * p.2.1 + (1 - alpha) * p.2.2 })

/-- Final order of line 178: hybrid descending, `chunk_id` ascending. -/
def hybridRank (a b : Scored) : Prop :=
  b.hybrid < a.hybrid ∨ (a.hybrid = b.hybrid ∧ strLeB a.chunk_id b.chunk_id = true)

instance : DecidableRel hybridRank := fun a b => by unfold hybridRank; infer_instance

/-- The ranking core of `retrieve_with_embeddings` (lines 120–179), from the
BM25 candidate rows and the raw per-chunk cosine scores to the final top-`k`
scored candidates. -/
def retrieveHybrid (alpha : ℚ) (k vectorK : Nat)
    (bm25Rows vecScores : List (String × ℚ)) : List Scored :=
  ((scoreCands alpha (unionCands bm25Rows (vecTopK vecScores vectorK))).insertionSort
    hybridRank).take k

/-- `LocalStore.search` ranking (`src/core/store/db.ts`):
`ORDER BY bm25(chunks_fts), c.chunk_id ASC`.  SQLite's `bm25()` returns
scores where a numerically smaller (more negative) value is a better match,
so ascending order is best-match-first. -/
def bm25Rank (a b : String × ℚ) : Prop :=
  a.2 < b.2 ∨ (a.2 = b.2 ∧ strLeB a.1 b.1 = true)

instance : DecidableRel bm25Rank := fun a b => by unfold bm25Rank; infer_instance

/-- Pure BM25 ranking: best BM25 match first, ties by `chunk_id` ascending. -/
def bm25Ranking (rows : List (String × ℚ)) : List (String × ℚ) :=
  rows.insertionSort bm25Rank

/-! ### Characterizing `minMaxNorm` -/

theorem foldMin_eq_foldl_min (vals : List ℚ) (a : ℚ) : foldMin vals a = vals.foldl min a := by
  unfold foldMin
  congr 1
  funext m v
  rcases lt_or_le v m with h | h
  · rw [if_pos h, min_eq_right h.le]
  · rw [if_neg (not_lt.mpr h), min_eq_left h]

theorem foldMax_eq_foldl_max (vals : List ℚ) (a : ℚ) : foldMax vals a = vals.foldl max a := by
  unfold foldMax
  congr 1
  funext m v
  rcases lt_or_le m v with h | h
  · rw [if_pos h, max_eq_right h.le]
  · rw [if_neg (not_lt.mpr h), max_eq_left h]

theorem foldl_min_le_init (t : List ℚ) (a : ℚ) : t.foldl min a ≤ a := by
  induction t generalizing a with
  | nil => exact le_refl a
  | cons x xs ih => exact le_trans (ih (min a x)) (min_le_left a x)

theorem foldl_min_le_mem (t : List ℚ) (a x : ℚ) (hx : x ∈ t) : t.foldl min a ≤ x := by
  induction t generalizing a with
  | nil => cases hx
  | cons y ys ih =>
    rcases List.mem_cons.mp hx with rfl | hmem
    · exact le_trans (foldl_min_le_init ys (min a x)) (min_le_right a x)
    · exact ih (min a y) hmem

theorem foldl_min_eq_init (t : List ℚ) (a : ℚ) (h : ∀ x ∈ t, a ≤ x) :
    t.foldl min a = a := by
  induction t generalizing a with
  | nil => rfl
  | cons y ys ih =>
    have hy : min a y = a := min_eq_left (h y (List.mem_cons_self y ys))
    simp only [List.foldl_cons, hy]
    exact ih a (fun x hx => h x (List.mem_cons_of_mem y hx))

theorem init_le_foldl_max (t : List ℚ) (a : ℚ) : a ≤ t.foldl max a := by
  induction t generalizing a with
  | nil => exact le_refl a
  | cons x xs ih => exact le_trans (le_max_left a x) (ih (max a x))

theorem mem_le_foldl_max (t : List ℚ) (a x : ℚ) (hx : x ∈ t) : x ≤ t.foldl max a := by
  induction t generalizing a with
  | nil => cases hx
  | cons y ys ih =>
    rcases List.mem_cons.mp hx with rfl | hmem
    · exact le_trans (le_max_right a x) (init_le_foldl_max ys (max a x))
    · exact ih (max a y) hmem

theorem foldl_max_eq_init (t : List ℚ) (a : ℚ) (h : ∀ x ∈ t, x ≤ a) :
    t.foldl max a = a := by
  induction t generalizing a with
  | nil => rfl
  | cons y ys ih =>
    have hy : max a y = a := max_eq_left (h y (List.mem_cons_self y ys))
    simp only [List.foldl_cons, hy]
    exact ih a (fun x hx => h x (List.mem_cons_of_mem y hx))

/-- The minimum of a score column (0 on an empty column). -/
def listMin : List ℚ → ℚ
  | [] => 0
  | v :: t => t.foldl min v

/-- The maximum of a score column (0 on an empty column). -/
def listMax : List ℚ → ℚ
  | [] => 0
  | v :: t => t.foldl max v

theorem listMin_le (vals : List ℚ) (x : ℚ) (hx : x ∈ vals) : listMin vals ≤ x := by
  match vals with
  | v :: t =>
    rcases List.mem_cons.mp hx with rfl | hmem
    · exact foldl_min_le_init t x
    · exact foldl_min_le_mem t v x hmem

theorem le_listMax (vals : List ℚ) (x : ℚ) (hx : x ∈ vals) : x ≤ listMax vals := by
  match vals with
  | v :: t =>
    rcases List.mem_cons.mp hx with rfl | hmem
    · exact init_le_foldl_max t x
    · exact mem_le_foldl_max t v x hmem

/-- Min-max normalization as the specification words it: `(x − min) / (max − min)`,
with every value sent to `0` when the maximum equals the minimum. -/
def minMaxSpec (vals : List ℚ) (x : ℚ) : ℚ :=
  if listMax vals = listMin vals then 0
  else (x - listMin vals) / (listMax vals - listMin vals)

theorem minMaxNorm_eq_map (vals : List ℚ) :
    minMaxNorm vals = vals.map (minMaxSpec vals) := by
  match vals with
  | [] => rfl
  | v0 :: t =>
    show (if foldMax (v0 :: t) v0 = foldMin (v0 :: t) v0 then _ else _) = _
    have hmn : foldMin (v0 :: t) v0 = listMin (v0 :: t) := by
      rw [foldMin_eq_foldl_min]
      show List.foldl min (min v0 v0) t = listMin (v0 :: t)
      rw [min_self]
      rfl
    have hmx : foldMax (v0 :: t) v0 = listMax (v0 :: t) := by
      rw [foldMax_eq_foldl_max]
      show List.foldl max (max v0 v0) t = listMax (v0 :: t)
      rw [max_self]
      rfl
    rw [hmn, hmx]
    unfold minMaxSpec
    by_cases h : listMax (v0 :: t) = listMin (v0 :: t)
    · rw [if_pos h]
      exact List.map_congr_left (fun a _ => by rw [if_pos h])
    · rw [if_neg h]
      exact List.map_congr_left (fun a _ => by rw [if_neg h])

theorem minMaxNorm_length (vals : List ℚ) : (minMaxNorm vals).length = vals.length := by
  rw [minMaxNorm_eq_map, List.length_map]

theorem zip_getElem? {α β : Type} (l : List α) (m : List β) (i : Nat) :
    (l.zip m)[i]? = (l[i]?).bind (fun a => (m[i]?).map (fun b => (a, b))) := by
  induction l generalizing m i with
  | nil => simp
  | cons x xs ih =>
    cases m with
    | nil => simp
    | cons y ys =>
      cases i with
      | zero => simp
      | succ j => simpa using ih ys j

/-! ### Claim theorems for the hybrid pipeline -/

/-- C2: every candidate in the union is scored
`hybrid = α·bm25_norm + (1−α)·cos_norm`, where the two `_norm` columns are
min-max normalization (`minMaxSpec`) applied separately to the BM25 and the
cosine scores of the union, a missing signal contributing `0`
(`c.bm25.getD 0` / `c.cos.getD 0`). -/
theorem hybrid_score_weighted_minmax (alpha : ℚ) (bm25Rows vecTop : List (String × ℚ))
    (i : Nat) (s : Scored)
    (hs : (scoreCands alpha (unionCands bm25Rows vecTop))[i]? = some s) :
    s.bm25_norm
        = minMaxSpec ((unionCands bm25Rows vecTop).map (fun c => c.bm25.getD 0))
            (((unionCands bm25Rows vecTop).map (fun c => c.bm25.getD 0)).getD i 0)
      ∧ s.cos_norm
        = minMaxSpec ((unionCands bm25Rows vecTop).map (fun c => c.cos.getD 0))
            (((unionCands bm25Rows vecTop).map (fun c => c.cos.getD 0)).getD i 0)
      ∧ s.hybrid = alpha * s.bm25_norm + (1 - alpha) * s.cos_norm := by
  set cands := unionCands bm25Rows vecTop with hcands
  set bVals := cands.map (fun c => c.bm25.getD 0) with hbVals
  set cVals := cands.map (fun c => c.cos.getD 0) with hcVals
  rw [scoreCands] at hs
  simp only [List.getElem?_map, zip_getElem?] at hs
  rcases hc : cands[i]? with _ | c
  · rw [hc] at hs; simp at hs
  rcases hb : (minMaxNorm bVals)[i]? with _ | b
  · rw [hc, hb] at hs; simp at hs
  rcases hcn : (minMaxNorm cVals)[i]? with _ | cn
  · rw [hc, hb, hcn] at hs; simp at hs
  rw [hc, hb, hcn] at hs
  simp only [Option.some_bind, Option.map_some', Option.some_inj] at hs
  have hbm : b = minMaxSpec bVals (bVals.getD i 0) := by
    rw [minMaxNorm_eq_map] at hb
    rw [List.getElem?_map] at hb
    rcases hbv : bVals[i]? with _ | bv
    · rw [hbv] at hb; simp at hb
    · rw [hbv] at hb
      simp only [Option.map_some', Option.some_inj] at hb
      rw [List.getD_eq_getElem?_getD, hbv, Option.getD_some, ← hb]
  have hcm : cn = minMaxSpec cVals (cVals.getD i 0) := by
    rw [minMaxNorm_eq_map] at hcn
    rw [List.getElem?_map] at hcn
    rcases hcv : cVals[i]? with _ | cv
    · rw [hcv] at hcn; simp at hcn
    · rw [hcv] at hcn
      simp only [Option.map_some', Option.some_inj] at hcn
      rw [List.getD_eq_getElem?_getD, hcv, Option.getD_some, ← hcn]
  subst hs
  exact ⟨hbm, hcm, rfl⟩

/-- Witness for C2 at a concrete input. -/
theorem hybrid_score_weighted_minmax_witness :
    ((scoreCands 1 (unionCands [("a", 1)] []))[0]?
        = some { chunk_id := "a", bm25 := some 1, cos := none,
                 bm25_norm := 0, cos_norm := 0, hybrid := 0 })
    ∧ ((0 : ℚ)
        = minMaxSpec ((unionCands [("a", 1)] []).map (fun c => c.bm25.getD 0))
            (((unionCands [("a", 1)] []).map (fun c => c.bm25.getD 0)).getD 0 0)
      ∧ (0 : ℚ)
        = minMaxSpec ((unionCands [("a", 1)] []).map (fun c => c.cos.getD 0))
            (((unionCands [("a", 1)] []).map (fun c => c.cos.getD 0)).getD 0 0)
      ∧ (0 : ℚ) = 1 * 0 + (1 - 1) * 0) := by
  have hs : (scoreCands 1 (unionCands [("a", 1)] []))[0]?
      = some { chunk_id := "a", bm25 := some 1, cos := none,
               bm25_norm := 0, cos_norm := 0, hybrid := 0 } := by
    norm_num [scoreCands, unionCands, minMaxNorm, foldMin, foldMax]
  exact ⟨hs, hybrid_score_weighted_minmax 1 [("a", 1)] [] 0 _ hs⟩

/-- C10: `minMaxNorm` sends any constant column (in particular any
single-element column) to all zeros; consequently a single candidate always
gets hybrid score `0`, and a signal whose values are all equal across the
union contributes `0` to every hybrid score. -/
theorem minmax_degenerate_zero :
    (∀ (vals : List ℚ) (v : ℚ), (∀ x ∈ vals, x = v) → minMaxNorm vals = vals.map (fun _ => 0))
    ∧ (∀ (alpha : ℚ) (c : Cand), (scoreCands alpha [c]).map (fun s => s.hybrid) = [0])
    ∧ (∀ (alpha : ℚ) (k vectorK : Nat) (cid : String) (score : ℚ), 1 ≤ k →
        (retrieveHybrid alpha k vectorK [(cid, score)] []).map (fun s => s.hybrid) = [0])
    ∧ (∀ (alpha : ℚ) (cands : List Cand) (v : ℚ),
        (∀ x ∈ cands.map (fun c => c.bm25.getD 0), x = v) →
        ∀ s ∈ scoreCands alpha cands, s.hybrid = (1 - alpha) * s.cos_norm)
    ∧ (∀ (alpha : ℚ) (cands : List Cand) (v : ℚ),
        (∀ x ∈ cands.map (fun c => c.cos.getD 0), x = v) →
        ∀ s ∈ scoreCands alpha cands, s.hybrid = alpha * s.bm25_norm) := by
  have hconst : ∀ (vals : List ℚ) (v : ℚ), (∀ x ∈ vals, x = v) →
      minMaxNorm vals = vals.map (fun _ => 0) := by
    intro vals v hv
    match vals with
    | [] => rfl
    | v0 :: t =>
      show (if foldMax (v0 :: t) v0 = foldMin (v0 :: t) v0 then _ else _) = _
      have hge : ∀ x ∈ v0 :: t, v0 ≤ x := by
        intro x hx
        rw [hv x hx, hv v0 (List.mem_cons_self v0 t)]
      have hle : ∀ x ∈ v0 :: t, x ≤ v0 := by
        intro x hx
        rw [hv x hx, hv v0 (List.mem_cons_self v0 t)]
      have hmn : foldMin (v0 :: t) v0 = v0 := by
        rw [foldMin_eq_foldl_min]; exact foldl_min_eq_init _ _ hge
      have hmx : foldMax (v0 :: t) v0 = v0 := by
        rw [foldMax_eq_foldl_max]; exact foldl_max_eq_init _ _ hle
      rw [hmn, hmx, if_pos rfl]
  have hsingle : ∀ (alpha : ℚ) (c : Cand),
      (scoreCands alpha [c]).map (fun s => s.hybrid) = [0] := by
    intro alpha c
    have h1 : minMaxNorm [c.bm25.getD 0] = [0] := by
      rw [hconst [c.bm25.getD 0] (c.bm25.getD 0) (by intro x hx; simpa using hx)]
      rfl
    have h2 : minMaxNorm [c.cos.getD 0] = [0] := by
      rw [hconst [c.cos.getD 0] (c.cos.getD 0) (by intro x hx; simpa using hx)]
      rfl
    show (([c].zip ((minMaxNorm [c.bm25.getD 0]).zip (minMaxNorm [c.cos.getD 0]))).map _).map _
        = [0]
    rw [h1, h2]
    simp
  refine ⟨hconst, hsingle, ?_, ?_, ?_⟩
  · intro alpha k vectorK cid score hk
    obtain ⟨n, rfl⟩ : ∃ n, k = n + 1 := ⟨k - 1, by omega⟩
    have hu : unionCands [(cid, score)] (vecTopK [] vectorK) = [⟨cid, some score, none⟩] := by
      simp [unionCands, vecTopK, List.insertionSort]
    rw [retrieveHybrid, hu]
    have := hsingle alpha ⟨cid, some score, none⟩
    rcases hsc : scoreCands alpha [⟨cid, some score, none⟩] with _ | ⟨s, tail⟩
    · rw [hsc] at this; simp at this
    · rw [hsc] at this
      simp only [List.map_cons, List.cons.injEq] at this
      obtain ⟨hs0, htail⟩ := this
      have htail0 : tail = [] := List.map_eq_nil_iff.mp htail
      subst htail0
      simp [List.insertionSort, List.orderedInsert, hs0]
  · intro alpha cands v hv s hs
    rw [scoreCands] at hs
    simp only [List.mem_map] at hs
    obtain ⟨p, hp, rfl⟩ := hs
    obtain ⟨c, b, cn⟩ := p
    have hzip := List.of_mem_zip hp
    have hb := (List.of_mem_zip hzip.2).1
    rw [hconst _ v hv] at hb
    simp only [List.mem_map] at hb
    obtain ⟨x, _, hx⟩ := hb
    simp only [← hx]
    ring
  · intro alpha cands v hv s hs
    rw [scoreCands] at hs
    simp only [List.mem_map] at hs
    obtain ⟨p, hp, rfl⟩ := hs
    obtain ⟨c, b, cn⟩ := p
    have hzip := List.of_mem_zip hp
    have hcn := (List.of_mem_zip hzip.2).2
    rw [hconst _ v hv] at hcn
    simp only [List.mem_map] at hcn
    obtain ⟨x, _, hx⟩ := hcn
    simp only [← hx]
    ring

/-- Witness for C10 at concrete inputs. -/
theorem minmax_degenerate_zero_witness :
    (∀ x ∈ ([5, 5] : List ℚ), x = 5)
    ∧ minMaxNorm [5, 5] = [0, 0]
    ∧ (1 : Nat) ≤ 2
    ∧ (retrieveHybrid (1/2) 2 7 [("c", 3)] []).map (fun s => s.hybrid) = [0] := by
  have h5 : ∀ x ∈ ([5, 5] : List ℚ), x = 5 := by decide
  refine ⟨h5, ?_, by norm_num, ?_⟩
  · have h := minmax_degenerate_zero.1 [5, 5] 5 h5
    simpa using h
  · exact minmax_degenerate_zero.2.2.1 (1/2) 2 7 "c" 3 (by norm_num)

/-- C1: with `alpha = 1` the tool does *not* return pure BM25 order.  SQLite's
`bm25()` scores are best-match-first ascending (more negative is better); on
the realistic BM25 candidate rows `[("a", -2), ("b", -1)]` — chunk `a` is the
better match, and `LocalStore.search` returns them in exactly this order — the
hybrid pipeline at `alpha = 1` outputs `["b", "a"]`, the reverse of the pure
BM25 ranking `["a", "b"]`: min-max normalization is monotone increasing and
the final sort is descending, so at `alpha = 1` the tool ranks worst BM25
match first. -/
theorem hybrid_alpha_one_reverses_pure_bm25 :
    ((retrieveHybrid 1 2 50 [("a", -2), ("b", -1)] []).map (fun s => s.chunk_id) = ["b", "a"])
    ∧ ((bm25Ranking [("a", -2), ("b", -1)]).map (fun p => p.1) = ["a", "b"]) := by
  constructor
  · norm_num [retrieveHybrid, scoreCands, unionCands, addVecCand, vecTopK, minMaxNorm,
      foldMin, foldMax, List.insertionSort, List.orderedInsert, hybridRank, vecRank]
  · norm_num [bm25Ranking, List.insertionSort, List.orderedInsert, bm25Rank]

/-! ## DAG commits (`GitOps.createCommit`, `src/core/store/git.ts` lines 120–132) -/

structure CommitRow where
  commit_hash : String
  tree_hash : String
  parents_json : String
  message : String
  created_at : String
deriving Repr, DecidableEq

/-- The identity payload `canonicalize({ tree_hash, parents })`.  The literal's
field order is irrelevant: `canonicalize` sorts keys. -/
def commitIdentityJson (treeHash : String) (parents : List String) : String :=
  canonicalize (.obj [("tree_hash", .str treeHash), ("parents", .arr (parents.map .str))])

/-- `GitOps.createCommit`: hash the canonical identity payload, then
`INSERT OR IGNORE` the commit row (`commit_hash` is the primary key).
`hashFn` stands for hex SHA-256. -/
def createCommit (hashFn : String → String) (commits : List CommitRow)
    (treeHash : String) (parents : List String) (message : String) :
    String × List CommitRow :=
  let commitHash := hashFn (commitIdentityJson treeHash parents)
  let row : CommitRow :=
    { commit_hash := commitHash, tree_hash := treeHash,
      parents_json := canonicalize (.arr (parents.map .str)),
      message := message, created_at := "1970-01-01T00:00:00.000Z" }
  if commits.any (fun c => c.commit_hash == commitHash) then (commitHash, commits)
  else (commitHash, commits ++ [row])

/-- C3: the commit hash is the digest of the canonical `{tree_hash, parents}`
payload, so it does not depend on the message; every row this call stores has
`created_at` equal to the epoch string; and two calls with the same tree hash
and ordered parent list return the same hash. -/
theorem createCommit_identity (hashFn : String → String) (commits : List CommitRow)
    (treeHash : String) (parents : List String) (message message2 : String)
    (c : CommitRow) (hc : c ∈ (createCommit hashFn commits treeHash parents message).2) :
    ((createCommit hashFn commits treeHash parents message).1
        = hashFn (commitIdentityJson treeHash parents))
    ∧ (∀ (commits2 : List CommitRow),
        (createCommit hashFn commits2 treeHash parents message2).1
          = (createCommit hashFn commits treeHash parents message).1)
    ∧ (c ∈ commits ∨ (c.created_at = "1970-01-01T00:00:00.000Z"
        ∧ c.commit_hash = hashFn (commitIdentityJson treeHash parents))) := by
  have hfst : ∀ (cs : List CommitRow) (m : String),
      (createCommit hashFn cs treeHash parents m).1
        = hashFn (commitIdentityJson treeHash parents) := by
    intro cs m
    simp only [createCommit]
    split <;> rfl
  refine ⟨hfst commits message,
    fun cs2 => (hfst cs2 message2).trans (hfst commits message).symm, ?_⟩
  unfold createCommit at hc
  by_cases h : commits.any
      (fun c => c.commit_hash == hashFn (commitIdentityJson treeHash parents))
  · rw [if_pos h] at hc
    exact Or.inl hc
  · rw [if_neg h] at hc
    rcases List.mem_append.mp hc with hmem | hmem
    · exact Or.inl hmem
    · rcases List.mem_singleton.mp hmem with rfl
      exact Or.inr ⟨rfl, rfl⟩

/-- A concrete commit row, used by the C3 witness. -/
def sampleCommitRow : CommitRow :=
  { commit_hash := commitIdentityJson "t" [],
    tree_hash := "t", parents_json := canonicalize (.arr []),
    message := "m", created_at := "1970-01-01T00:00:00.000Z" }

/-- Witness for C3 at a concrete input (identity stands in for the digest). -/
theorem createCommit_identity_witness :
    (sampleCommitRow ∈ (createCommit (fun s => s) [] "t" [] "m").2)
    ∧ ((createCommit (fun s => s) [] "t" [] "m").1
        = (fun s : String => s) (commitIdentityJson "t" []))
    ∧ ((createCommit (fun s => s) [] "t" [] "m2").1
        = (createCommit (fun s => s) [] "t" [] "m").1)
    ∧ (sampleCommitRow ∈ ([] : List CommitRow)
        ∨ (sampleCommitRow.created_at = "1970-01-01T00:00:00.000Z"
          ∧ sampleCommitRow.commit_hash
              = (fun s : String => s) (commitIdentityJson "t" []))) := by
  have hc : sampleCommitRow ∈ (createCommit (fun s => s) [] "t" [] "m").2 := by
    simp [createCommit, sampleCommitRow]
  have h := createCommit_identity (fun s => s) [] "t" [] "m" "m2" _ hc
  exact ⟨hc, h.1, h.2.1 [], h.2.2⟩

/-! ## FTS maintenance gate (`LocalStore.init`, `src/core/store/db.ts` lines 133–237)

The gate is a singleton row `fts_maintenance(id, enabled)` plus `BEFORE`
triggers.  A `BEFORE` trigger executing `RAISE(ABORT, msg)` rejects the write;
the state below is a relational snapshot of the three tables, and each
operation is the SQLite write together with the triggers that watch it.  The
gate value read by every trigger is
`COALESCE((SELECT enabled FROM fts_maintenance WHERE id=1), 0)`. -/

structure FtsContentRow where
  rowid : Nat
  tree_hash : String
  chunk_id : String
  text : String
deriving Repr, DecidableEq

structure FtsState where
  maintenance : List (Nat × Nat)
  fts_chunks : List FtsContentRow
  fts_index : List (Nat × String)
deriving Repr, DecidableEq

/-- `COALESCE((SELECT enabled FROM fts_maintenance WHERE id=1), 0)`. -/
def gateEnabled (st : FtsState) : Nat :=
  ((st.maintenance.find? (fun r => r.1 == 1)).map (fun r => r.2)).getD 0

/-- INSERT on `fts_chunks`: rejected by `fts_chunks_gate_ins` when the gate is
closed; mirrored into `fts_chunks_fts` by `fts_chunks_ai` when open. -/
def insertFtsChunk (st : FtsState) (row : FtsContentRow) : Except String FtsState :=
  if gateEnabled st = 0 then .error "fts_chunks is read-only (gate locked)"
  else .ok { st with fts_chunks := st.fts_chunks ++ [row],
                     fts_index := st.fts_index ++ [(row.rowid, row.text)] }

/-- DELETE on `fts_chunks`: rejected by `fts_chunks_gate_del` when the gate is
closed; mirrored as an index delete by `fts_chunks_ad` when open. -/
def deleteFtsChunk (st : FtsState) (p : FtsContentRow → Bool) : Except String FtsState :=
  if gateEnabled st = 0 then .error "fts_chunks is read-only (gate locked)"
  else .ok { st with
    fts_chunks := st.fts_chunks.filter (fun r => !(p r)),
    fts_index := st.fts_index.filter
      (fun e => !(st.fts_chunks.any (fun r => p r && r.rowid == e.1))) }

/-- UPDATE on `fts_chunks`: unconditionally rejected by `fts_chunks_no_update`. -/
def updateFtsChunk (st : FtsState) : Except String FtsState :=
  .error "fts_chunks is immutable; delete and re-insert instead"

/-- Direct INSERT on `fts_chunks_fts`: rejected by `fts_chunks_fts_no_ins`
when the gate is closed. -/
def insertFtsIndex (st : FtsState) (e : Nat × String) : Except String FtsState :=
  if gateEnabled st = 0 then .error "fts_chunks_fts is read-only; write to fts_chunks"
  else .ok { st with fts_index := st.fts_index ++ [e] }

/-- Direct UPDATE on `fts_chunks_fts`: rejected by `fts_chunks_fts_no_upd`
when the gate is closed. -/
def updateFtsIndex (st : FtsState) (f : Nat × String → Nat × String) :
    Except String FtsState :=
  if gateEnabled st = 0 then .error "fts_chunks_fts is read-only; write to fts_chunks"
  else .ok { st with fts_index := st.fts_index.map f }

/-- Direct DELETE on `fts_chunks_fts`: rejected by `fts_chunks_fts_no_del`
when the gate is closed. -/
def deleteFtsIndex (st : FtsState) (p : Nat × String → Bool) : Except String FtsState :=
  if gateEnabled st = 0 then .error "fts_chunks_fts is read-only; write to fts_chunks"
  else .ok { st with fts_index := st.fts_index.filter (fun e => !(p e)) }

/-- DELETE on `fts_maintenance`: unconditionally rejected by
`fts_maintenance_no_delete`. -/
def deleteMaintenance (st : FtsState) : Except String FtsState :=
  .error "fts_maintenance is immutable singleton"

/-- INSERT on `fts_maintenance`: rejected by `fts_maintenance_no_insert`
`WHEN EXISTS (SELECT 1 FROM fts_maintenance WHERE id=1)`. -/
def insertMaintenance (st : FtsState) (row : Nat × Nat) : Except String FtsState :=
  if st.maintenance.any (fun r => r.1 == 1) then .error "fts_maintenance is singleton"
  else .ok { st with maintenance := st.maintenance ++ [row] }

/-- C4: with the singleton gate row present and `enabled = 0`, every INSERT or
DELETE on `fts_chunks` and every direct write on `fts_chunks_fts` aborts.
Moreover — in every state, whatever the gate value — an UPDATE on
`fts_chunks` aborts and a DELETE of the `fts_maintenance` row aborts, and an
INSERT into `fts_maintenance` aborts in every state in which the singleton
row already exists. -/
theorem fts_gate_locked_rejects (st : FtsState)
    (hgate : st.maintenance.find? (fun r => r.1 == 1) = some (1, 0)) :
    (∀ row, insertFtsChunk st row = .error "fts_chunks is read-only (gate locked)")
    ∧ (∀ p, deleteFtsChunk st p = .error "fts_chunks is read-only (gate locked)")
    ∧ (∀ e, insertFtsIndex st e
        = .error "fts_chunks_fts is read-only; write to fts_chunks")
    ∧ (∀ f, updateFtsIndex st f
        = .error "fts_chunks_fts is read-only; write to fts_chunks")
    ∧ (∀ p, deleteFtsIndex st p
        = .error "fts_chunks_fts is read-only; write to fts_chunks")
    ∧ (∀ st2 : FtsState, updateFtsChunk st2
        = .error "fts_chunks is immutable; delete and re-insert instead")
    ∧ (∀ st2 : FtsState, deleteMaintenance st2
        = .error "fts_maintenance is immutable singleton")
    ∧ (∀ st2 : FtsState, st2.maintenance.any (fun r => r.1 == 1) = true →
        ∀ row, insertMaintenance st2 row = .error "fts_maintenance is singleton") := by
  have h0 : gateEnabled st = 0 := by
    unfold gateEnabled
    rw [hgate]
    rfl
  refine ⟨?_, ?_, ?_, ?_, ?_, fun st2 => rfl, fun st2 => rfl, ?_⟩
  · intro row; unfold insertFtsChunk; rw [if_pos h0]
  · intro p; unfold deleteFtsChunk; rw [if_pos h0]
  · intro e; unfold insertFtsIndex; rw [if_pos h0]
  · intro f; unfold updateFtsIndex; rw [if_pos h0]
  · intro p; unfold deleteFtsIndex; rw [if_pos h0]
  · intro st2 hany row; unfold insertMaintenance; rw [if_pos hany]

/-- Witness for C4: the locked conjuncts on the freshly initialized gate
state, and the unconditional conjuncts exercised on an OPEN gate state
(`enabled = 1`), where the UPDATE, the maintenance DELETE and the second
maintenance INSERT still abort. -/
theorem fts_gate_locked_rejects_witness :
    ((⟨[(1, 0)], [], []⟩ : FtsState).maintenance.find? (fun r => r.1 == 1) = some (1, 0))
    ∧ insertFtsChunk ⟨[(1, 0)], [], []⟩ ⟨1, "t", "c", "x"⟩
        = .error "fts_chunks is read-only (gate locked)"
    ∧ updateFtsChunk ⟨[(1, 1)], [], []⟩
        = .error "fts_chunks is immutable; delete and re-insert instead"
    ∧ deleteMaintenance ⟨[(1, 1)], [], []⟩
        = .error "fts_maintenance is immutable singleton"
    ∧ insertMaintenance ⟨[(1, 1)], [], []⟩ (1, 0)
        = .error "fts_maintenance is singleton" := by
  have hgate : (⟨[(1, 0)], [], []⟩ : FtsState).maintenance.find? (fun r => r.1 == 1)
      = some (1, 0) := by decide
  have h := fts_gate_locked_rejects ⟨[(1, 0)], [], []⟩ hgate
  exact ⟨hgate, h.1 ⟨1, "t", "c", "x"⟩, h.2.2.2.2.2.1 ⟨[(1, 1)], [], []⟩,
    h.2.2.2.2.2.2.1 ⟨[(1, 1)], [], []⟩,
    h.2.2.2.2.2.2.2 ⟨[(1, 1)], [], []⟩ (by decide) (1, 0)⟩

/-! ## `build_fts_tree` preflight (`src/tools/build_fts_tree.ts` lines 36–134) -/

/-- A `tree_chunks` row restricted to the columns the preflight reads. -/
structure TreeChunkRef where
  tree_hash : String
  chunk_id : String
  content_hash : String
deriving Repr, DecidableEq

/-- An `fts_chunks` row restricted to the payload columns. -/
structure FtsPayloadRow where
  tree_hash : String
  chunk_id : String
  content_hash : String
deriving Repr, DecidableEq

/-- An `index_artifacts` row; `content_hash` is what the preflight SELECTs as
`payload_hash`. -/
structure ArtifactRow where
  artifact_id : String
  tree_hash : String
  kind : String
  model_id : Option String
  content_hash : String
deriving Repr, DecidableEq

structure FtsStore where
  refs : List (String × String)
  commits : List CommitRow
  tree_chunks : List TreeChunkRef
  fts_chunks : List FtsPayloadRow
  index_artifacts : List ArtifactRow
deriving Repr, DecidableEq

/-- `/^[a-f0-9]{64}$/`. -/
def isHex64 (s : String) : Bool :=
  s.length == 64 &&
    s.data.all (fun c => ('0' ≤ c && c ≤ '9') || ('a' ≤ c && c ≤ 'f'))

/-- `GitOps.getRef`: `SELECT commit_hash FROM refs WHERE ref_name = ?`. -/
def getRef (st : FtsStore) (name : String) : Option String :=
  (st.refs.find? (fun r => r.1 == name)).map (fun r => r.2)

/-- `GitOps.resolveTarget` (a stored `commit_hash` is a nonempty string, so JS
truthiness of the ref lookup is option-ness here). -/
def resolveTarget (st : FtsStore) (target : String) : Option String :=
  match getRef st target with
  | some h => some h
  | none => if isHex64 target then some target else none

/-- `GitOps.getTreeHashForCommit`. -/
def getTreeHashForCommit (st : FtsStore) (commitHash : String) : Option String :=
  (st.commits.find? (fun c => c.commit_hash == commitHash)).map (fun c => c.tree_hash)

/-- Tie order for `ORDER BY chunk_id ASC` over `(chunk_id, content_hash)`
pairs; `chunk_id` is unique per tree (`UNIQUE(tree_hash, chunk_id)`). -/
def payloadRank (a b : String × String) : Prop := strLeB a.1 b.1 = true

instance : DecidableRel payloadRank := fun a b => by unfold payloadRank; infer_instance

/-- `SELECT chunk_id, content_hash FROM fts_chunks WHERE tree_hash = ?
ORDER BY chunk_id ASC`. -/
def ftsPayloadRows (st : FtsStore) (treeHash : String) : List (String × String) :=
  ((st.fts_chunks.filter (fun r => r.tree_hash == treeHash)).map
      (fun r => (r.chunk_id, r.content_hash))).insertionSort payloadRank

/-- `canonicalize(currentPayload)` — the canonical JSON array of
`{chunk_id, content_hash}` row objects. -/
def payloadJson (rows : List (String × String)) : String :=
  canonicalize (.arr (rows.map (fun r =>
    .obj [("chunk_id", .str r.1), ("content_hash", .str r.2)])))

inductive FtsPre where
  | err (code : String)
  | skipped (artifactId : String)
  | proceed (commitHash treeHash : String)
deriving Repr, DecidableEq

/-- Lines 36–134 of `BuildFtsTreeTool.execute`: resolve the ref, require a
frozen tree, and — without `force_rebuild` — run the idempotency check against
the registered `(tree, kind='fts', model_id IS NULL)` artifact and then the
dirty-state preflight.  Everything here only reads the store. -/
def buildFtsPreflight (hashFn : String → String) (st : FtsStore) (ref : String)
    (forceRebuild : Bool) : FtsPre :=
  match resolveTarget st ref with
  | none => .err "ERR_REF_NOT_FOUND"
  | some commitHash =>
    match getTreeHashForCommit st commitHash with
    | none => .err "ERR_TREE_MISSING"
    | some treeHash =>
      if !(st.tree_chunks.any (fun r => r.tree_hash == treeHash)) then
        .err "ERR_NOT_FROZEN"
      else if forceRebuild then .proceed commitHash treeHash
      else
        match st.index_artifacts.find? (fun a =>
            a.tree_hash == treeHash && a.kind == "fts" && a.model_id == none) with
        | some existing =>
          let recomputed := hashFn (payloadJson (ftsPayloadRows st treeHash))
          if recomputed != existing.content_hash then .err "ERR_ARTIFACT_DRIFT"
          else .skipped existing.artifact_id
        | none =>
          if (st.fts_chunks.filter (fun r => r.tree_hash == treeHash)).length > 0 then
            .err "ERR_DIRTY_STATE"
          else .proceed commitHash treeHash

inductive FtsResult where
  | err (code : String)
  | skipped (artifactId : String)
  | success (artifactId : String)
deriving Repr, DecidableEq

/-- `BuildFtsTreeTool.execute` as preflight plus rebuild: only the `proceed`
outcome enters the gate-open transaction (modelled by the `body` parameter,
studied separately); the `skipped` and error outcomes return before any
write. -/
def buildFtsTreeRun (hashFn : String → String)
    (body : String → String → FtsStore → FtsResult × FtsStore)
    (st : FtsStore) (ref : String) (forceRebuild : Bool) : FtsResult × FtsStore :=
  match buildFtsPreflight hashFn st ref forceRebuild with
  | .err code => (.err code, st)
  | .skipped a => (.skipped a, st)
  | .proceed commitHash treeHash => body commitHash treeHash st

/-- C5: without `force_rebuild`, when an FTS artifact exists for the resolved
tree, the tool returns `skipped` with the stored `artifact_id` exactly when
the recomputed digest of the canonical sorted `{chunk_id, content_hash}`
payload equals the stored `payload_hash`, and returns `ERR_ARTIFACT_DRIFT`
with the store untouched when it differs — for every rebuild body. -/
theorem build_fts_idempotency (hashFn : String → String)
    (body : String → String → FtsStore → FtsResult × FtsStore)
    (st : FtsStore) (ref commitHash treeHash : String) (a : ArtifactRow)
    (h1 : resolveTarget st ref = some commitHash)
    (h2 : getTreeHashForCommit st commitHash = some treeHash)
    (h3 : st.tree_chunks.any (fun r => r.tree_hash == treeHash) = true)
    (h4 : st.index_artifacts.find? (fun a =>
        a.tree_hash == treeHash && a.kind == "fts" && a.model_id == none) = some a) :
    (hashFn (payloadJson (ftsPayloadRows st treeHash)) = a.content_hash →
        buildFtsTreeRun hashFn body st ref false = (.skipped a.artifact_id, st))
    ∧ (hashFn (payloadJson (ftsPayloadRows st treeHash)) ≠ a.content_hash →
        buildFtsTreeRun hashFn body st ref false = (.err "ERR_ARTIFACT_DRIFT", st)) := by
  have hpre : ∀ out, buildFtsPreflight hashFn st ref false = out →
      buildFtsTreeRun hashFn body st ref false
        = (match out with
            | .err code => (.err code, st)
            | .skipped x => (.skipped x, st)
            | .proceed cH tH => body cH tH st) := by
    intro out hout
    rw [buildFtsTreeRun, hout]
  constructor
  · intro heq
    have hout : buildFtsPreflight hashFn st ref false = .skipped a.artifact_id := by
      simp [buildFtsPreflight, h1, h2, h3, h4, heq]
    simpa using hpre _ hout
  · intro hne
    have hout : buildFtsPreflight hashFn st ref false = .err "ERR_ARTIFACT_DRIFT" := by
      simp [buildFtsPreflight, h1, h2, h3, h4, bne_iff_ne, hne]
    simpa using hpre _ hout

/-- Concrete store for the C5 witness: one committed tree `"T"` with one
frozen chunk and a matching FTS artifact (identity digest). -/
def sampleFtsStore : FtsStore :=
  { refs := [("HEAD", "c0")],
    commits := [{ commit_hash := "c0", tree_hash := "T", parents_json := "[]",
                  message := "m", created_at := "1970-01-01T00:00:00.000Z" }],
    tree_chunks := [⟨"T", "c1", "h1"⟩],
    fts_chunks := [⟨"T", "c1", "h1"⟩],
    index_artifacts := [⟨"A", "T", "fts", none, payloadJson [("c1", "h1")]⟩] }

/-- Witness for C5: on `sampleFtsStore` the preflight hypotheses hold and the
equal-digest branch returns `skipped "A"` leaving the store unchanged. -/
theorem build_fts_idempotency_witness :
    (resolveTarget sampleFtsStore "HEAD" = some "c0")
    ∧ (getTreeHashForCommit sampleFtsStore "c0" = some "T")
    ∧ (sampleFtsStore.tree_chunks.any (fun r => r.tree_hash == "T") = true)
    ∧ (sampleFtsStore.index_artifacts.find? (fun a =>
        a.tree_hash == "T" && a.kind == "fts" && a.model_id == none)
          = some ⟨"A", "T", "fts", none, payloadJson [("c1", "h1")]⟩)
    ∧ buildFtsTreeRun (fun s => s) (fun _ _ st => (.err "ERR_BUILD_FAILED", st))
        sampleFtsStore "HEAD" false = (.skipped "A", sampleFtsStore) := by
  have h1 : resolveTarget sampleFtsStore "HEAD" = some "c0" := by rfl
  have h2 : getTreeHashForCommit sampleFtsStore "c0" = some "T" := by rfl
  have h3 : sampleFtsStore.tree_chunks.any (fun r => r.tree_hash == "T") = true := by rfl
  have h4 : sampleFtsStore.index_artifacts.find? (fun a =>
      a.tree_hash == "T" && a.kind == "fts" && a.model_id == none)
        = some ⟨"A", "T", "fts", none, payloadJson [("c1", "h1")]⟩ := by rfl
  have heq : (fun s : String => s) (payloadJson (ftsPayloadRows sampleFtsStore "T"))
      = (⟨"A", "T", "fts", none, payloadJson [("c1", "h1")]⟩ : ArtifactRow).content_hash := by
    rfl
  exact ⟨h1, h2, h3, h4,
    (build_fts_idempotency (fun s => s) (fun _ _ st => (.err "ERR_BUILD_FAILED", st))
      sampleFtsStore "HEAD" "c0" "T" _ h1 h2 h3 h4).1 heq⟩

/-! ## Gate open/close cleanup (`build_fts_tree.ts` lines 140–295) -/

/-- The database as seen by the gate logic: presence of the singleton row,
its `enabled` flag, and everything else (`σ`). -/
structure GateDb (σ : Type) where
  gatePresent : Bool
  enabled : Bool
  rest : σ
deriving Repr, DecidableEq

/-- `UPDATE fts_maintenance SET enabled = 0 WHERE id = 1`.  No trigger watches
UPDATE on `fts_maintenance` and the value satisfies its CHECK constraint, so
within the embedded schema this statement cannot be rejected (compare the C4
trigger model); the source nonetheless wraps each close in `try … catch {}`,
swallowing a hypothetical failure. -/
def closeGate {σ : Type} (st : GateDb σ) : GateDb σ := { st with enabled := false }

/-- The transaction-plus-cleanup skeleton of `BuildFtsTreeTool.execute`
lines 140–295: open the gate with a checked UPDATE (`ERR_GATE_MISSING` when
the singleton is absent), run the rebuild body, close the gate in the inner
`finally`; a body failure aborts `db.transaction`, rolling the database back
to the pre-transaction snapshot, after which the outer `catch` closes the
gate again and returns the body's error code in the envelope. -/
def buildFtsGateRun {σ : Type} (body : σ → Except String σ) (st : GateDb σ) :
    Except String Unit × GateDb σ :=
  if !st.gatePresent then (.error "ERR_GATE_MISSING", closeGate st)
  else
    match body st.rest with
    | .ok rest2 => (.ok (), { gatePresent := st.gatePresent, enabled := false, rest := rest2 })
    | .error e => (.error e, closeGate st)

/-- C6: once the gate row is present (so the open succeeds), every exit path
ends with `enabled = 0`; when the body fails, the state is the rolled-back
snapshot with the gate closed and the body's primary error code — never a
close failure — is the one returned. -/
theorem fts_gate_cleanup {σ : Type} (body : σ → Except String σ) (st : GateDb σ)
    (hpresent : st.gatePresent = true) :
    ((buildFtsGateRun body st).2.enabled = false)
    ∧ (∀ e, body st.rest = .error e →
        buildFtsGateRun body st = (.error e, closeGate st))
    ∧ (∀ rest2, body st.rest = .ok rest2 →
        buildFtsGateRun body st
          = (.ok (), { gatePresent := st.gatePresent, enabled := false, rest := rest2 })) := by
  have hneg : (!st.gatePresent) = false := by rw [hpresent]; rfl
  refine ⟨?_, ?_, ?_⟩
  · rw [buildFtsGateRun, hneg]
    simp only [Bool.false_eq_true, if_false]
    rcases body st.rest with _ | rest2 <;> rfl
  · intro e he
    rw [buildFtsGateRun, hneg, he]
    simp
  · intro rest2 hok
    rw [buildFtsGateRun, hneg, hok]
    simp

/-- Witness for C6 with a failing rebuild body over a `Nat` payload. -/
theorem fts_gate_cleanup_witness :
    ((⟨true, false, 7⟩ : GateDb Nat).gatePresent = true)
    ∧ ((buildFtsGateRun (fun _ => .error "ERR_DATA_CORRUPTION") (⟨true, false, 7⟩ : GateDb Nat)).2.enabled
        = false)
    ∧ (buildFtsGateRun (fun _ => .error "ERR_DATA_CORRUPTION") (⟨true, false, 7⟩ : GateDb Nat)
        = (.error "ERR_DATA_CORRUPTION", closeGate ⟨true, false, 7⟩)) := by
  have h := fts_gate_cleanup (fun _ : Nat => (.error "ERR_DATA_CORRUPTION" : Except String Nat))
    (⟨true, false, 7⟩ : GateDb Nat) rfl
  exact ⟨rfl, h.1, h.2.1 "ERR_DATA_CORRUPTION" rfl⟩

/-! ## `build_embeddings` transaction (`BuildEmbeddingsTool.execute`)

The transaction body of lines 242–298: tree existence check, `dims` from the
first vector, per-row upsert, artifact registration.  A blob is stored as
`toFloat32Blob(vec)` (`src/core/embeddings/vec.ts`), whose byte length is
exactly `4 · |vec|`; the row keeps the vector, and `blobLen` gives the length
of its encoding. -/

structure EmbRow where
  tree_hash : String
  chunk_id : String
  model_id : String
  vec : List ℚ
  dims : Nat
  content_hash : String
deriving Repr, DecidableEq

/-- Byte length of `toFloat32Blob(vec)`: four bytes per float32 component. -/
def blobLen (vec : List ℚ) : Nat := 4 * vec.length

structure EmbStore where
  trees : List String
  chunk_embeddings : List EmbRow
  index_artifacts : List ArtifactRow
  artifact_refs : List (String × String × String × String)
deriving Repr, DecidableEq

/-- `INSERT … ON CONFLICT(tree_hash, chunk_id, model_id) DO UPDATE`. -/
def upsertEmb (rows : List EmbRow) (row : EmbRow) : List EmbRow :=
  if rows.any (fun r => r.tree_hash == row.tree_hash && r.chunk_id == row.chunk_id
      && r.model_id == row.model_id) then
    rows.map (fun r =>
      if r.tree_hash == row.tree_hash && r.chunk_id == row.chunk_id
          && r.model_id == row.model_id then row else r)
  else rows ++ [row]

/-- `INSERT … ON CONFLICT(ref_type, ref_name, kind) DO UPDATE SET artifact_id`. -/
def upsertArtifactRef (refs : List (String × String × String × String))
    (e : String × String × String × String) : List (String × String × String × String) :=
  if refs.any (fun r => r.1 == e.1 && r.2.1 == e.2.1 && r.2.2.2 == e.2.2.2) then
    refs.map (fun r =>
      if r.1 == e.1 && r.2.1 == e.2.1 && r.2.2.2 == e.2.2.2 then e else r)
  else refs ++ [e]

inductive EmbResult where
  | err (code : String)
  | built (artifactId : String) (dims chunkCount : Nat)
deriving Repr, DecidableEq

def EmbResult.isBuilt : EmbResult → Bool
  | .built _ _ _ => true
  | .err _ => false

/-- The `db.transaction` body of `BuildEmbeddingsTool.execute`
(lines 242–298).  `vectors` is the provider output paired with chunk ids;
`blobHash` digests a blob, `hashFn` digests canonical JSON, and
`entriesHash` is `computeHash(git.getTreeEntries(treeHash) ?? [])`. -/
def buildEmbeddingsTx (hashFn blobHash : String → String) (entriesHash : String)
    (st : EmbStore) (treeHash providerId refName resolvedCommit : String)
    (dimensions : Option Nat) (vectors : List (String × List ℚ)) :
    EmbResult × EmbStore :=
  if !(st.trees.any (fun t => t == treeHash)) then (.err "ERR_TREE_NOT_FOUND", st)
  else
    let dims := ((vectors.head?.map (fun v => v.2.length)).getD 0)
    if dims = 0 then (.err "ERR_EMBEDDING_DIMS", st)
    else
      let rows := vectors.foldl (fun acc v =>
        upsertEmb acc
          { tree_hash := treeHash, chunk_id := v.1, model_id := providerId,
            vec := v.2, dims := dims,
            content_hash := blobHash (canonicalize (.arr (v.2.map (fun q => .num q.num)))) })
        st.chunk_embeddings
      let manifest : Json := .obj
        [("kind", .str "chunk_embeddings"), ("tree_hash", .str treeHash),
         ("provider_id", .str providerId), ("dims", .num dims),
         ("dimensions", match dimensions with | some d => .num d | none => .null),
         ("chunk_count", .num vectors.length), ("tree_entries_hash", .str entriesHash)]
      let manifestJson := canonicalize manifest
      let manifestHash := hashFn manifestJson
      let artifactId := hashFn (canonicalize (.obj
        [("kind", .str "chunk_embeddings"), ("tree_hash", .str treeHash),
         ("provider_id", .str providerId), ("dims", .num dims),
         ("manifest_hash", .str manifestHash)]))
      let arts := (st.index_artifacts.filter (fun a => !(a.artifact_id == artifactId)))
        ++ [{ artifact_id := artifactId, tree_hash := treeHash,
              kind := "chunk_embeddings", model_id := some providerId,
              content_hash := manifestHash }]
      let refs1 := upsertArtifactRef st.artifact_refs
        ("commit", resolvedCommit, artifactId, "chunk_embeddings")
      let refs2 := if refName == "HEAD" || refName == "main" then
          upsertArtifactRef refs1 ("ref", refName, artifactId, "chunk_embeddings")
        else refs1
      (.built artifactId dims vectors.length,
        { st with chunk_embeddings := rows, index_artifacts := arts,
                  artifact_refs := refs2 })

/-- C7 (failing-input evaluation): on provider output with mixed vector
lengths `[("c1", [1, 2]), ("c2", [3])]` the transaction does **not** reject
with `ERR_EMBEDDING_DIMS`: it reports `built`, registers the artifact, stores
`dims = 2` (the first vector's length) on every row, and stores for `"c2"` a
blob of `blobLen [3] = 4` bytes, violating `blob_len = dims · 4 = 8`.  The
only dims check in the code is `dims <= 0` on the first vector. -/
theorem build_embeddings_missing_uniform_dims_check :
    ((buildEmbeddingsTx (fun s => s) (fun _ => "bh") "eh"
        ⟨["T"], [], [], []⟩ "T" "p" "HEAD" "c0" none
        [("c1", [1, 2]), ("c2", [3])]).1.isBuilt = true)
    ∧ ((buildEmbeddingsTx (fun s => s) (fun _ => "bh") "eh"
        ⟨["T"], [], [], []⟩ "T" "p" "HEAD" "c0" none
        [("c1", [1, 2]), ("c2", [3])]).2.index_artifacts.length = 1)
    ∧ (∀ r ∈ (buildEmbeddingsTx (fun s => s) (fun _ => "bh") "eh"
        ⟨["T"], [], [], []⟩ "T" "p" "HEAD" "c0" none
        [("c1", [1, 2]), ("c2", [3])]).2.chunk_embeddings, r.dims = 2)
    ∧ (∃ r ∈ (buildEmbeddingsTx (fun s => s) (fun _ => "bh") "eh"
        ⟨["T"], [], [], []⟩ "T" "p" "HEAD" "c0" none
        [("c1", [1, 2]), ("c2", [3])]).2.chunk_embeddings,
          blobLen r.vec ≠ r.dims * 4) := by
  refine ⟨rfl, rfl, ?_, ?_⟩
  · intro r hr
    have : (buildEmbeddingsTx (fun s => s) (fun _ => "bh") "eh"
        ⟨["T"], [], [], []⟩ "T" "p" "HEAD" "c0" none
        [("c1", [1, 2]), ("c2", [3])]).2.chunk_embeddings
        = [{ tree_hash := "T", chunk_id := "c1", model_id := "p", vec := [1, 2],
             dims := 2, content_hash := "bh" },
           { tree_hash := "T", chunk_id := "c2", model_id := "p", vec := [3],
             dims := 2, content_hash := "bh" }] := by rfl
    rw [this] at hr
    simp only [List.mem_cons, List.not_mem_nil, or_false] at hr
    rcases hr with rfl | rfl <;> rfl
  · refine ⟨(⟨"T", "c2", "p", [3], 2, "bh"⟩ : EmbRow), ?_, by decide⟩
    show _ ∈ (buildEmbeddingsTx (fun s => s) (fun _ => "bh") "eh"
        ⟨["T"], [], [], []⟩ "T" "p" "HEAD" "c0" none
        [("c1", [1, 2]), ("c2", [3])]).2.chunk_embeddings
    have : (buildEmbeddingsTx (fun s => s) (fun _ => "bh") "eh"
        ⟨["T"], [], [], []⟩ "T" "p" "HEAD" "c0" none
        [("c1", [1, 2]), ("c2", [3])]).2.chunk_embeddings
        = [{ tree_hash := "T", chunk_id := "c1", model_id := "p", vec := [1, 2],
             dims := 2, content_hash := "bh" },
           { tree_hash := "T", chunk_id := "c2", model_id := "p", vec := [3],
             dims := 2, content_hash := "bh" }] := by rfl
    rw [this]
    exact List.mem_cons_of_mem _ (List.mem_singleton.mpr rfl)

/-! ## `create_task` (`src/tools/create_task.ts`, tool version 1.0.1)

The deterministic schedule resolution, normalization, task-id derivation and
SQLite-backed idempotent commit of `CreateTaskTool.execute` (lines 29–153).
`uuid5 name namespace` stands for UUIDv5, `hashFn` for `computeHash`
(SHA-256 of canonical JSON), and `addSeconds t n` for
`new Date(Date.parse(t) + n * 1000).toISOString()`. -/

/-- `s.trim()` — this repository's keys and titles only ever carry plain
spaces as surrounding whitespace. -/
def trimStr (s : String) : String :=
  ⟨((s.data.dropWhile (fun c => c == ' ')).reverse.dropWhile (fun c => c == ' ')).reverse⟩

/-- `s.toLowerCase()` character-wise. -/
def lowerStr (s : String) : String := ⟨s.data.map Char.toLower⟩

def TASK_NAMESPACE : String := "6ba7b810-9dad-11d1-80b4-00c04fd430c8"

structure TaskRow where
  task_id : String
  idempotency_key : String
  title : String
  action : String
  payload_json : String
  status : String
  next_run_at : String
deriving Repr, DecidableEq

structure TaskInput where
  title : String
  action : String
  payload : Json
  run_at : Option String
  interval_seconds : Option Nat

inductive TaskOutcome where
  | err (code : String)
  | dryRun (taskId : String)
  | created (taskId : String) (payloadJson : String)
  | idempotentHit (taskId : String) (payloadJson : String) (status : String)
deriving Repr, DecidableEq

/-- The normalized task as canonical JSON (`computeHash(normalized_task)`
hashes exactly this value). -/
def normalizedTaskJson (task : TaskInput) (nextRunAt : String) : Json :=
  .obj [("title", .str (trimStr task.title)),
        ("action", .str (trimStr (lowerStr task.action))),
        ("payload", task.payload),
        ("status", .str "pending"),
        ("schedule", .obj [("next_run_at", .str nextRunAt)])]

/-- `CreateTaskTool.execute` (v1.0.1).  JS truthiness of `idempotency_key`
makes an absent key and an empty-string key equivalent. -/
def createTask (uuid5 : String → String → String) (hashFn : String → String)
    (addSeconds : String → Nat → String) (tasks : List TaskRow)
    (referenceTime : Option String) (task : TaskInput) (mode : String)
    (idempotencyKey : Option String) : TaskOutcome × List TaskRow :=
  let next? : Except String String :=
    match task.run_at with
    | some r => .ok r
    | none =>
      match task.interval_seconds with
      | some n =>
        match referenceTime with
        | none => .error "ERR_DETERMINISM"
        | some t => .ok (addSeconds t n)
      | none => .error "ERR_INVALID_SCHEDULE"
  match next? with
  | .error code => (.err code, tasks)
  | .ok nextRunAt =>
    let seed := if mode == "commit" then idempotencyKey.getD ""
      else hashFn (canonicalize (normalizedTaskJson task nextRunAt))
    if mode == "commit" && (idempotencyKey.getD "") == "" then
      (.err "ERR_IDEMPOTENCY_REQUIRED", tasks)
    else
      let taskId := uuid5 seed TASK_NAMESPACE
      let payloadJson := canonicalize task.payload
      if mode == "dry_run" then (.dryRun taskId, tasks)
      else
        match tasks.find? (fun t => t.task_id == taskId) with
        | some existing =>
          (.idempotentHit taskId existing.payload_json existing.status, tasks)
        | none =>
          (.created taskId payloadJson,
            tasks ++ [{ task_id := taskId, idempotency_key := idempotencyKey.getD "",
                        title := trimStr task.title,
                        action := trimStr (lowerStr task.action),
                        payload_json := payloadJson, status := "pending",
                        next_run_at := nextRunAt }])

theorem find?_append_none {α : Type} (p : α → Bool) (l₁ l₂ : List α)
    (h : l₁.find? p = none) : (l₁ ++ l₂).find? p = l₂.find? p := by
  induction l₁ with
  | nil => rfl
  | cons x xs ih =>
    by_cases hx : p x
    · rw [List.find?_cons_of_pos _ hx] at h
      cases h
    · rw [List.find?_cons_of_neg _ hx] at h
      rw [List.cons_append, List.find?_cons_of_neg _ hx]
      exact ih h

/-- The row the first commit-mode insert stores. -/
def insertedTaskRow (uuid5 : String → String → String) (task : TaskInput)
    (k r : String) : TaskRow :=
  { task_id := uuid5 k TASK_NAMESPACE, idempotency_key := k,
    title := trimStr task.title, action := trimStr (lowerStr task.action),
    payload_json := canonicalize task.payload, status := "pending",
    next_run_at := r }

/-- C8: in commit mode — with a resolvable schedule — a missing (or empty,
by JS truthiness) idempotency key yields `ERR_IDEMPOTENCY_REQUIRED` with
nothing inserted; with a key `k` the task id is `uuid5 k TASK_NAMESPACE`; a
fresh insert stores status `"pending"` under that id; a submission whose id
is already stored returns `idempotent_hit` carrying the stored payload with
the table unchanged; and after a fresh insert, a second submission with the
same key returns `idempotent_hit` carrying the first submission's stored
payload unchanged. -/
theorem create_task_commit_idempotency (uuid5 : String → String → String) (hashFn : String → String)
    (addSeconds : String → Nat → String) (tasks : List TaskRow)
    (referenceTime : Option String) (task : TaskInput) (r k : String)
    (hr : task.run_at = some r) (hk : k ≠ "") :
    (createTask uuid5 hashFn addSeconds tasks referenceTime task "commit" none
        = (.err "ERR_IDEMPOTENCY_REQUIRED", tasks))
    ∧ (tasks.find? (fun t => t.task_id == uuid5 k TASK_NAMESPACE) = none →
        createTask uuid5 hashFn addSeconds tasks referenceTime task "commit" (some k)
          = (.created (uuid5 k TASK_NAMESPACE) (canonicalize task.payload),
             tasks ++ [insertedTaskRow uuid5 task k r]))
    ∧ (∀ existing, tasks.find? (fun t => t.task_id == uuid5 k TASK_NAMESPACE) = some existing →
        createTask uuid5 hashFn addSeconds tasks referenceTime task "commit" (some k)
          = (.idempotentHit (uuid5 k TASK_NAMESPACE) existing.payload_json existing.status,
             tasks))
    ∧ (tasks.find? (fun t => t.task_id == uuid5 k TASK_NAMESPACE) = none →
        ∀ (task2 : TaskInput) (r2 : String), task2.run_at = some r2 →
          createTask uuid5 hashFn addSeconds
              (createTask uuid5 hashFn addSeconds tasks referenceTime task
                "commit" (some k)).2
              referenceTime task2 "commit" (some k)
            = (.idempotentHit (uuid5 k TASK_NAMESPACE) (canonicalize task.payload) "pending",
               (createTask uuid5 hashFn addSeconds tasks referenceTime task
                 "commit" (some k)).2)) := by
  have hmissing : createTask uuid5 hashFn addSeconds tasks referenceTime task
      "commit" none = (.err "ERR_IDEMPOTENCY_REQUIRED", tasks) := by
    simp [createTask, hr]
  have hfresh : tasks.find? (fun t => t.task_id == uuid5 k TASK_NAMESPACE) = none →
      createTask uuid5 hashFn addSeconds tasks referenceTime task
        "commit" (some k)
        = (.created (uuid5 k TASK_NAMESPACE) (canonicalize task.payload),
           tasks ++ [insertedTaskRow uuid5 task k r]) := by
    intro hfind
    simp [createTask, hr, hk, hfind, insertedTaskRow]
  have hhit : ∀ existing,
      tasks.find? (fun t => t.task_id == uuid5 k TASK_NAMESPACE) = some existing →
      createTask uuid5 hashFn addSeconds tasks referenceTime task
        "commit" (some k)
        = (.idempotentHit (uuid5 k TASK_NAMESPACE) existing.payload_json existing.status,
           tasks) := by
    intro existing hfind
    simp [createTask, hr, hk, hfind]
  refine ⟨hmissing, hfresh, hhit, ?_⟩
  intro hfind task2 r2 hr2
  rw [hfresh hfind]
  have hfind2 : (tasks ++ [insertedTaskRow uuid5 task k r]).find?
      (fun t => t.task_id == uuid5 k TASK_NAMESPACE)
      = some (insertedTaskRow uuid5 task k r) := by
    rw [find?_append_none _ _ _ hfind]
    simp [insertedTaskRow]
  simp [createTask, hr2, hk, hfind, insertedTaskRow]

/-- Witness for C8 at a concrete input (`n ++ "@" ++ ns` stands in for
UUIDv5). -/
theorem create_task_commit_idempotency_witness :
    ((⟨"A", "B", .obj [("x", .num 1)], some "2020-01-01T00:00:00.000Z", none⟩
        : TaskInput).run_at = some "2020-01-01T00:00:00.000Z")
    ∧ ("key" : String) ≠ ""
    ∧ (([] : List TaskRow).find?
        (fun t => t.task_id == (fun n ns => n ++ "@" ++ ns) "key" TASK_NAMESPACE) = none)
    ∧ (createTask (fun n ns => n ++ "@" ++ ns) (fun s => s) (fun t _ => t) [] none
        ⟨"A", "B", .obj [("x", .num 1)], some "2020-01-01T00:00:00.000Z", none⟩
        "commit" none
        = (.err "ERR_IDEMPOTENCY_REQUIRED", []))
    ∧ (createTask (fun n ns => n ++ "@" ++ ns) (fun s => s) (fun t _ => t) [] none
        ⟨"A", "B", .obj [("x", .num 1)], some "2020-01-01T00:00:00.000Z", none⟩
        "commit" (some "key")
        = (.created ("key" ++ "@" ++ TASK_NAMESPACE) (canonicalize (.obj [("x", .num 1)])),
           [insertedTaskRow (fun n ns => n ++ "@" ++ ns)
             ⟨"A", "B", .obj [("x", .num 1)], some "2020-01-01T00:00:00.000Z", none⟩
             "key" "2020-01-01T00:00:00.000Z"])) := by
  have h := create_task_commit_idempotency (fun n ns => n ++ "@" ++ ns) (fun s => s)
    (fun t _ => t) [] none
    ⟨"A", "B", .obj [("x", .num 1)], some "2020-01-01T00:00:00.000Z", none⟩
    "2020-01-01T00:00:00.000Z" "key" rfl (by decide)
  refine ⟨rfl, by decide, rfl, h.1, ?_⟩
  have h2 := h.2.1 rfl
  simpa using h2

/-! ## Commit capture and checkout (`commit_index`, `checkout_index`,
`GitOps.createTreeFromCurrentState`, `GitOps.buildDocumentText`,
`GitOps.materializeTree`)

Strings are compared by `strLeB`/`strLtB` (code-unit order, matching both the
JS comparisons and SQLite's BINARY collation on this repository's ASCII
identifiers). -/

/-- Strict version of `charListLeB`. -/
def charListLtB : List Char → List Char → Bool
  | [], [] => false
  | [], _ :: _ => true
  | _ :: _, [] => false
  | a :: as, b :: bs => if a < b then true else if b < a then false else charListLtB as bs

def strLtB (a b : String) : Bool := charListLtB a.data b.data

theorem charListLtB_le (a b : List Char) (h : charListLtB a b = true) :
    charListLeB a b = true := by
  induction a generalizing b with
  | nil => cases b <;> rfl
  | cons x xs ih =>
    cases b with
    | nil => cases h
    | cons y ys =>
      unfold charListLtB at h
      unfold charListLeB
      by_cases hxy : x < y
      · rw [if_pos hxy]
      · rw [if_neg hxy] at h ⊢
        by_cases hyx : y < x
        · rw [if_pos hyx] at h; cases h
        · rw [if_neg hyx] at h ⊢
          exact ih ys h

theorem strLtB_le (a b : String) (h : strLtB a b = true) : strLeB a b = true :=
  charListLtB_le a.data b.data h

theorem charListLtB_asymm (a b : List Char) (h : charListLtB a b = true) :
    charListLtB b a = false := by
  induction a generalizing b with
  | nil =>
    cases b with
    | nil => cases h
    | cons y ys => rfl
  | cons x xs ih =>
    cases b with
    | nil => cases h
    | cons y ys =>
      unfold charListLtB at h ⊢
      by_cases hxy : x < y
      · rw [if_neg (lt_asymm hxy), if_pos hxy]
      · rw [if_neg hxy] at h
        by_cases hyx : y < x
        · rw [if_pos hyx] at h; cases h
        · rw [if_neg hyx] at h
          rw [if_neg hyx, if_neg hxy]
          exact ih ys h

theorem strLtB_asymm (a b : String) (h : strLtB a b = true) : strLtB b a = false :=
  charListLtB_asymm a.data b.data h

theorem charListLtB_irrefl (a : List Char) : charListLtB a a = false := by
  induction a with
  | nil => rfl
  | cons x xs ih =>
    unfold charListLtB
    rw [if_neg (lt_irrefl x), if_neg (lt_irrefl x)]
    exact ih

/-! ### Nat fold-max helpers for `buildDocumentText`'s length computation -/

theorem nat_foldl_max_init_le (l : List Nat) (a : Nat) : a ≤ l.foldl max a := by
  induction l generalizing a with
  | nil => exact le_refl a
  | cons x xs ih => exact le_trans (le_max_left a x) (ih (max a x))

theorem nat_foldl_max_mem_le (l : List Nat) (a x : Nat) (hx : x ∈ l) :
    x ≤ l.foldl max a := by
  induction l generalizing a with
  | nil => cases hx
  | cons y ys ih =>
    rcases List.mem_cons.mp hx with rfl | hmem
    · exact le_trans (le_max_right a x) (nat_foldl_max_init_le ys (max a x))
    · exact ih (max a y) hmem

/-! ### `GitOps.buildDocumentText` (reconstruction of a document from its
chunk spans) and the write/slice lemmas behind the checkout round trip -/

/-- A chunk normalized for document reconstruction:
`start = span_start ?? 0`, `end = span_end ?? (start + text.length)`. -/
structure NormChunk where
  s : Nat
  e : Nat
  text : String
deriving Repr, DecidableEq

/-- Writing `txt` into a character array at offset `s`, extending with
spaces when the array is too short — the inner loop of
`buildDocumentText`. -/
def writeChunk (arr : List Char) (s : Nat) (txt : List Char) : List Char :=
  let arr2 := arr ++ List.replicate (s + txt.length - arr.length) ' '
  (arr2.take s) ++ txt ++ (arr2.drop (s + txt.length))

/-- `GitOps.buildDocumentText`: preallocate
`max over (end, start + text.length)` spaces, then write every chunk's text
at its start offset. -/
def buildDocumentText (chunks : List NormChunk) : String :=
  if chunks.isEmpty then "" else
  let len := chunks.foldl (fun acc c => max acc (max c.e (c.s + c.text.length))) 0
  ⟨chunks.foldl (fun arr c => writeChunk arr c.s c.text.data) (List.replicate len ' ')⟩

theorem writeChunk_of_le (arr : List Char) (s : Nat) (txt : List Char)
    (h : s + txt.length ≤ arr.length) :
    writeChunk arr s txt = (arr.take s) ++ txt ++ (arr.drop (s + txt.length)) := by
  unfold writeChunk
  have : s + txt.length - arr.length = 0 := by omega
  rw [this]
  simp

theorem writeChunk_length (arr : List Char) (s : Nat) (txt : List Char)
    (h : s + txt.length ≤ arr.length) :
    (writeChunk arr s txt).length = arr.length := by
  rw [writeChunk_of_le arr s txt h]
  simp only [List.length_append, List.length_take, List.length_drop]
  omega

theorem writeChunk_getElem? (arr : List Char) (s : Nat) (txt : List Char)
    (h : s + txt.length ≤ arr.length) (i : Nat) :
    (writeChunk arr s txt)[i]?
      = if s ≤ i ∧ i < s + txt.length then txt[i - s]? else arr[i]? := by
  rw [writeChunk_of_le arr s txt h, List.append_assoc]
  have hts : (arr.take s).length = s := by
    rw [List.length_take]; omega
  by_cases hmid : s ≤ i ∧ i < s + txt.length
  · rw [if_pos hmid, List.getElem?_append, hts, if_neg (by omega),
      List.getElem?_append, if_pos (by omega)]
  · rw [if_neg hmid]
    by_cases h1 : i < s
    · rw [List.getElem?_append, hts, if_pos h1, List.getElem?_take, if_pos h1]
    · rw [List.getElem?_append, hts, if_neg h1, List.getElem?_append,
        if_neg (by omega), List.getElem?_drop]
      congr 1
      omega

/-- JS `String.prototype.substring(start, end)` for `start ≤ end`
(character indices, clamped at the string length). -/
def strSlice (s : String) (a b : Nat) : String := ⟨(s.data.drop a).take (b - a)⟩

/-- Write regions of two chunks do not overlap. -/
def spansApart (a b : NormChunk) : Prop :=
  a.s + a.text.length ≤ b.s ∨ b.s + b.text.length ≤ a.s

def writeAll (cs : List NormChunk) (arr : List Char) : List Char :=
  cs.foldl (fun a c => writeChunk a c.s c.text.data) arr

theorem writeAll_length (cs : List NormChunk) (arr : List Char)
    (hb : ∀ c ∈ cs, c.s + c.text.length ≤ arr.length) :
    (writeAll cs arr).length = arr.length := by
  induction cs generalizing arr with
  | nil => rfl
  | cons d ds ih =>
    show (writeAll ds (writeChunk arr d.s d.text.data)).length = arr.length
    have hd : d.s + d.text.length ≤ arr.length := hb d (List.mem_cons_self d ds)
    have hlen : (writeChunk arr d.s d.text.data).length = arr.length :=
      writeChunk_length arr d.s d.text.data hd
    rw [ih (writeChunk arr d.s d.text.data) (fun c hc => by
      rw [hlen]; exact hb c (List.mem_cons_of_mem d hc))]
    exact hlen

theorem writeAll_untouched (cs : List NormChunk) (arr : List Char) (i : Nat)
    (hb : ∀ c ∈ cs, c.s + c.text.length ≤ arr.length)
    (hu : ∀ c ∈ cs, ¬(c.s ≤ i ∧ i < c.s + c.text.length)) :
    (writeAll cs arr)[i]? = arr[i]? := by
  induction cs generalizing arr with
  | nil => rfl
  | cons d ds ih =>
    show (writeAll ds (writeChunk arr d.s d.text.data))[i]? = arr[i]?
    have hd : d.s + d.text.length ≤ arr.length := hb d (List.mem_cons_self d ds)
    have hlen : (writeChunk arr d.s d.text.data).length = arr.length :=
      writeChunk_length arr d.s d.text.data hd
    rw [ih (writeChunk arr d.s d.text.data)
      (fun c hc => by rw [hlen]; exact hb c (List.mem_cons_of_mem d hc))
      (fun c hc => hu c (List.mem_cons_of_mem d hc))]
    rw [writeChunk_getElem? arr d.s d.text.data hd i]
    rw [if_neg (by
      have := hu d (List.mem_cons_self d ds)
      simpa using this)]

theorem writeAll_covered (cs : List NormChunk) (arr : List Char)
    (hb : ∀ c ∈ cs, c.s + c.text.length ≤ arr.length)
    (hdisj : List.Pairwise spansApart cs)
    (c : NormChunk) (hc : c ∈ cs) (j : Nat) (hj : j < c.text.length) :
    (writeAll cs arr)[c.s + j]? = c.text.data[j]? := by
  induction cs generalizing arr with
  | nil => cases hc
  | cons d ds ih =>
    have hd : d.s + d.text.length ≤ arr.length := hb d (List.mem_cons_self d ds)
    have hlen : (writeChunk arr d.s d.text.data).length = arr.length :=
      writeChunk_length arr d.s d.text.data hd
    rcases List.mem_cons.mp hc with rfl | hmem
    · show (writeAll ds (writeChunk arr c.s c.text.data))[c.s + j]? = c.text.data[j]?
      have hu : ∀ c2 ∈ ds, ¬(c2.s ≤ c.s + j ∧ c.s + j < c2.s + c2.text.length) := by
        intro c2 hc2
        rcases (List.pairwise_cons.mp hdisj).1 c2 hc2 with hap | hap
        · unfold spansApart at *
          intro hcon
          omega
        · intro hcon
          omega
      rw [writeAll_untouched ds (writeChunk arr c.s c.text.data) (c.s + j)
        (fun c2 hc2 => by rw [hlen]; exact hb c2 (List.mem_cons_of_mem c hc2)) hu]
      rw [writeChunk_getElem? arr c.s c.text.data hd (c.s + j)]
      rw [if_pos ⟨Nat.le_add_right c.s j, by
        have : c.text.data.length = c.text.length := rfl
        omega⟩]
      congr 1
      omega
    · show (writeAll ds (writeChunk arr d.s d.text.data))[c.s + j]? = c.text.data[j]?
      exact ih (writeChunk arr d.s d.text.data)
        (fun c2 hc2 => by rw [hlen]; exact hb c2 (List.mem_cons_of_mem d hc2))
        (List.pairwise_cons.mp hdisj).2 hmem

theorem foldl_max_map_aux (cs : List NormChunk) (a : Nat) :
    cs.foldl (fun acc x => max acc (max x.e (x.s + x.text.length))) a
      = (cs.map (fun x => max x.e (x.s + x.text.length))).foldl max a := by
  induction cs generalizing a with
  | nil => rfl
  | cons y ys ih =>
    show List.foldl _ (max a _) ys = _
    rw [ih (max a (max y.e (y.s + y.text.length)))]
    rfl

/-- The preallocated length dominates every chunk's write region. -/
theorem buildDocumentText_len_ge (cs : List NormChunk) (c : NormChunk) (hc : c ∈ cs) :
    c.s + c.text.length
      ≤ cs.foldl (fun acc x => max acc (max x.e (x.s + x.text.length))) 0 := by
  rw [foldl_max_map_aux cs 0]
  have h1 : max c.e (c.s + c.text.length)
      ∈ cs.map (fun x => max x.e (x.s + x.text.length)) :=
    List.mem_map_of_mem _ hc
  have h2 := nat_foldl_max_mem_le _ 0 _ h1
  omega

/-- Slicing the reconstructed document at a chunk's write region recovers the
chunk text, provided the chunks' write regions are pairwise disjoint. -/
theorem buildDocumentText_slice (cs : List NormChunk) (c : NormChunk) (hc : c ∈ cs)
    (hdisj : List.Pairwise spansApart cs) :
    strSlice (buildDocumentText cs) c.s (c.s + c.text.length) = c.text := by
  have hne : cs.isEmpty = false := by
    cases cs with
    | nil => cases hc
    | cons d ds => rfl
  unfold buildDocumentText
  rw [hne]
  simp only [Bool.false_eq_true, if_false]
  set L := cs.foldl (fun acc x => max acc (max x.e (x.s + x.text.length))) 0 with hL
  have harr : (List.replicate L ' ').length = L := List.length_replicate L ' '
  have hb : ∀ x ∈ cs, x.s + x.text.length ≤ (List.replicate L ' ').length := by
    intro x hx
    rw [harr]
    exact buildDocumentText_len_ge cs x hx
  unfold strSlice
  apply String.ext
  show ((writeAll cs (List.replicate L ' ')).drop c.s).take (c.s + c.text.length - c.s)
      = c.text.data
  have hsub : c.s + c.text.length - c.s = c.text.length := by omega
  rw [hsub]
  apply List.ext_getElem?
  intro n
  rw [List.getElem?_take]
  by_cases hn : n < c.text.length
  · rw [if_pos hn, List.getElem?_drop]
    exact writeAll_covered cs (List.replicate L ' ') hb hdisj c hc n hn
  · rw [if_neg hn]
    have : c.text.data.length ≤ n := by
      have : c.text.data.length = c.text.length := rfl
      omega
    exact (List.getElem?_eq_none this).symm

/-! ### Data model for the commit/checkout round trip -/

structure DocRow where
  doc_id : String
  content_hash : String
  title : Option String
  updated_at : String
deriving Repr, DecidableEq

structure ChunkRow where
  chunk_id : String
  doc_id : String
  text : String
  span_start : Option Nat
  span_end : Option Nat
  content_hash : String
deriving Repr, DecidableEq

structure TreeEntry where
  doc_id : String
  doc_content_hash : String
  title : Option String
  chunk_id : String
  chunk_content_hash : String
  span_start : Nat
  span_end : Nat
deriving Repr, DecidableEq

structure TreeDocRow where
  tree_hash : String
  doc_id : String
  blob_hash : String
  content_hash : String
deriving Repr, DecidableEq

structure TreeChunkRow where
  tree_hash : String
  chunk_id : String
  doc_id : String
  span_start : Nat
  span_end : Nat
  content_hash : String
  chunker_id : String
deriving Repr, DecidableEq

/-- The database as commit/checkout see it.  `trees` stores
`(tree_hash, entries)`; `entries_json` is `entriesJsonOf` of the entry list
(`JSON.parse` on `getTreeEntries` is modelled by storing the parsed value).
`blobs` maps `blob_hash` to the blob's UTF-8 text, `chunks_fts` is the
rebuilt working FTS index (derived from `chunks`). -/
structure IndexState where
  documents : List DocRow
  chunks : List ChunkRow
  chunks_fts : List String
  trees : List (String × List TreeEntry)
  tree_docs : List TreeDocRow
  tree_chunks : List TreeChunkRow
  blobs : List (String × String)
  commits : List CommitRow
  refs : List (String × String)
deriving Repr, DecidableEq

/-! ### Row orders of the `ORDER BY` clauses -/

def docIdRank (a b : DocRow) : Prop := strLeB a.doc_id b.doc_id = true

instance : DecidableRel docIdRank := fun a b => by unfold docIdRank; infer_instance

def chunkRank (a b : ChunkRow) : Prop :=
  (strLtB a.doc_id b.doc_id
    || (a.doc_id == b.doc_id && strLeB a.chunk_id b.chunk_id)) = true

instance : DecidableRel chunkRank := fun a b => by unfold chunkRank; infer_instance

def treeDocRank (a b : TreeDocRow) : Prop := strLeB a.doc_id b.doc_id = true

instance : DecidableRel treeDocRank := fun a b => by unfold treeDocRank; infer_instance

def treeChunkRank (a b : TreeChunkRow) : Prop :=
  (strLtB a.doc_id b.doc_id
    || (a.doc_id == b.doc_id && strLeB a.chunk_id b.chunk_id)) = true

instance : DecidableRel treeChunkRank := fun a b => by unfold treeChunkRank; infer_instance

def entryRank (a b : TreeEntry) : Prop :=
  (strLtB a.doc_id b.doc_id
    || (a.doc_id == b.doc_id && strLeB a.chunk_id b.chunk_id)) = true

instance : DecidableRel entryRank := fun a b => by unfold entryRank; infer_instance

/-! ### `GitOps.createTreeFromCurrentState` -/

/-- One row of `documents ⋈ chunks` with the `COALESCE` span defaults. -/
def entryOf (d : DocRow) (c : ChunkRow) : TreeEntry :=
  { doc_id := d.doc_id, doc_content_hash := d.content_hash, title := d.title,
    chunk_id := c.chunk_id, chunk_content_hash := c.content_hash,
    span_start := c.span_start.getD 0, span_end := c.span_end.getD c.text.length }

/-- `SELECT … FROM documents d JOIN chunks c ON c.doc_id = d.doc_id
ORDER BY d.doc_id ASC, c.chunk_id ASC`. -/
def treeEntriesOf (docs : List DocRow) (chunks : List ChunkRow) : List TreeEntry :=
  ((docs.map (fun d =>
      (chunks.filter (fun c => c.doc_id == d.doc_id)).map (entryOf d))).flatten).insertionSort
    entryRank

def entryJson (e : TreeEntry) : Json :=
  .obj [("doc_id", .str e.doc_id), ("doc_content_hash", .str e.doc_content_hash),
        ("title", match e.title with | some t => .str t | none => .null),
        ("chunk_id", .str e.chunk_id), ("chunk_content_hash", .str e.chunk_content_hash),
        ("span_start", .num e.span_start), ("span_end", .num e.span_end)]

def entriesJsonOf (entries : List TreeEntry) : String :=
  canonicalize (.arr (entries.map entryJson))

/-- `createTreeFromCurrentState`: canonical entries and their digest. -/
def createTreeHash (hashFn : String → String) (st : IndexState) : String :=
  hashFn (entriesJsonOf (treeEntriesOf st.documents st.chunks))

/-! ### `commit_index` (the persistence of `CommitIndexTool.execute`) -/

/-- `INSERT OR IGNORE`, the conflict given by `conflict old new`. -/
def insertIgnore {α : Type} (conflict : α → α → Bool) (tbl : List α) (row : α) : List α :=
  if tbl.any (fun x => conflict x row) then tbl else tbl ++ [row]

/-- `GitOps.updateRef`: `INSERT … ON CONFLICT(ref_name) DO UPDATE`. -/
def upsertRef (refs : List (String × String)) (name hash : String) :
    List (String × String) :=
  if refs.any (fun r => r.1 == name) then
    refs.map (fun r => if r.1 == name then (name, hash) else r)
  else refs ++ [(name, hash)]

/-- Chunk normalization at the top of `buildDocumentText`. -/
def normChunk (c : ChunkRow) : NormChunk :=
  let s := c.span_start.getD 0
  { s := s, e := c.span_end.getD (s + c.text.length), text := c.text }

/-- The reconstructed full text of one document: `buildDocumentText` over the
document's chunks in `(doc_id, chunk_id)` order. -/
def docTextOf (chunks : List ChunkRow) (docId : String) : String :=
  buildDocumentText
    (((chunks.insertionSort chunkRank).filter (fun c => c.doc_id == docId)).map normChunk)

/-- `commit_index` success path: snapshot the working tables into
`trees`/`blobs`/`tree_docs`/`tree_chunks`, create the commit, move the branch
and `HEAD`.  Returns `(commit_hash, tree_hash)` and the new state. -/
def commitIndex (hashFn : String → String) (st : IndexState)
    (message branch : String) : (String × String) × IndexState :=
  let currentTip := ((st.refs.find? (fun r => r.1 == branch)).map (fun r => r.2))
  let parents := match currentTip with | some t => [t] | none => []
  let entries := treeEntriesOf st.documents st.chunks
  let treeHash := hashFn (entriesJsonOf entries)
  let trees2 := insertIgnore (fun a b => a.1 == b.1) st.trees (treeHash, entries)
  let docRows := st.documents.insertionSort docIdRank
  let chunkRows := st.chunks.insertionSort chunkRank
  let blobs2 := (docRows.map (fun d =>
      (hashFn (docTextOf st.chunks d.doc_id), docTextOf st.chunks d.doc_id))).foldl
    (insertIgnore (fun a b => a.1 == b.1)) st.blobs
  let treeDocs2 := (docRows.map (fun d =>
      ({ tree_hash := treeHash, doc_id := d.doc_id,
         blob_hash := hashFn (docTextOf st.chunks d.doc_id),
         content_hash := d.content_hash } : TreeDocRow))).foldl
    (insertIgnore (fun a b => a.tree_hash == b.tree_hash && a.doc_id == b.doc_id))
    st.tree_docs
  let treeChunks2 := (chunkRows.map (fun c =>
      ({ tree_hash := treeHash, chunk_id := c.chunk_id, doc_id := c.doc_id,
         span_start := c.span_start.getD 0,
         span_end := c.span_end.getD c.text.length,
         content_hash := c.content_hash, chunker_id := "legacy" } : TreeChunkRow))).foldl
    (insertIgnore (fun a b => a.tree_hash == b.tree_hash && a.chunk_id == b.chunk_id))
    st.tree_chunks
  let commitHash := hashFn (commitIdentityJson treeHash parents)
  let commits2 := insertIgnore (fun a b => a.commit_hash == b.commit_hash) st.commits
    { commit_hash := commitHash, tree_hash := treeHash,
      parents_json := canonicalize (.arr (parents.map .str)), message := message,
      created_at := "1970-01-01T00:00:00.000Z" }
  let refs2 := upsertRef (upsertRef st.refs branch commitHash) "HEAD" commitHash
  ((commitHash, treeHash),
   { st with trees := trees2, blobs := blobs2, tree_docs := treeDocs2,
             tree_chunks := treeChunks2, commits := commits2, refs := refs2 })

/-! ### `GitOps.materializeTree` and `checkout_index` -/

def blobLookup (blobs : List (String × String)) (h : String) : Option String :=
  (blobs.find? (fun b => b.1 == h)).map (fun b => b.2)

/-- `titleByDoc`: the first entry of the tree carrying the document id. -/
def titleByDoc (entries : List TreeEntry) (docId : String) : Option String :=
  match entries.find? (fun e => e.doc_id == docId) with
  | some e => e.title
  | none => none

/-- Resolve each `tree_docs` row's blob (`ERR_BLOB_MISSING` when absent). -/
def docBlobs (blobs : List (String × String)) :
    List TreeDocRow → Except String (List (String × String))
  | [] => .ok []
  | d :: ds =>
    match blobLookup blobs d.blob_hash with
    | none => .error "ERR_BLOB_MISSING"
    | some text => (docBlobs blobs ds).map (fun rest => (d.doc_id, text) :: rest)

/-- `GitOps.materializeTree` (checkout): load entries, read the tree's docs
and chunks in key order, resolve blobs, rebuild `documents` (epoch
`updated_at`, titles from the entries) and `chunks` (text sliced from the
document blob).  `tree_docs`/`tree_chunks` primary keys make the source's
`seenDocs` dedup a no-op, so it is not repeated here. -/
def materializeTree (st : IndexState) (treeHash : String) :
    Except String (List DocRow × List ChunkRow) :=
  match (st.trees.find? (fun t => t.1 == treeHash)).map (fun t => t.2) with
  | none => .error "ERR_TREE_NOT_FOUND"
  | some entries =>
    let docRows := (st.tree_docs.filter
      (fun d => d.tree_hash == treeHash)).insertionSort treeDocRank
    if docRows.isEmpty then .error "ERR_TREE_DOCS_MISSING"
    else
      let chunkRows := (st.tree_chunks.filter
        (fun c => c.tree_hash == treeHash)).insertionSort treeChunkRank
      if chunkRows.isEmpty then .error "ERR_TREE_CHUNKS_MISSING"
      else
        match docBlobs st.blobs docRows with
        | .error e => .error e
        | .ok blobByDoc =>
          let newDocs := docRows.map (fun d =>
            ({ doc_id := d.doc_id, content_hash := d.content_hash,
               title := titleByDoc entries d.doc_id,
               updated_at := "1970-01-01T00:00:00.000Z" } : DocRow))
          let newChunks := chunkRows.map (fun c =>
            let docText := ((blobByDoc.find? (fun b => b.1 == c.doc_id)).map
              (fun b => b.2)).getD ""
            ({ chunk_id := c.chunk_id, doc_id := c.doc_id,
               text := strSlice docText c.span_start c.span_end,
               span_start := some c.span_start, span_end := some c.span_end,
               content_hash := c.content_hash } : ChunkRow))
          .ok (newDocs, newChunks)

/-- The rebuilt working `chunks_fts` is determined by the `chunks` table
(`INSERT INTO chunks_fts(chunks_fts) VALUES('rebuild')`). -/
def chunksFtsOf (chunks : List ChunkRow) : List String := chunks.map (fun c => c.text)

/-- `checkout_index` commit path: resolve the target, materialize the tree
into the working tables, rebuild the FTS index, move `HEAD`.  The tool's
read-only preflight (tree existence, payload presence, blob coverage) is
subsumed by `materializeTree`'s own checks. -/
def checkoutIndex (st : IndexState) (target : String) : Except String IndexState :=
  let resolved := match (st.refs.find? (fun r => r.1 == target)).map (fun r => r.2) with
    | some h => some h
    | none => if isHex64 target then some target else none
  match resolved with
  | none => .error "ERR_REF_NOT_FOUND"
  | some commit =>
    match (st.commits.find? (fun c => c.commit_hash == commit)).map
        (fun c => c.tree_hash) with
    | none => .error "ERR_TREE_HASH_MISSING"
    | some treeHash =>
      match materializeTree st treeHash with
      | .error e => .error e
      | .ok (docs, chunks) =>
        .ok { st with documents := docs, chunks := chunks,
                      chunks_fts := chunksFtsOf chunks,
                      refs := upsertRef st.refs "HEAD" commit }

/-! ### Lemmas about refs, `INSERT OR IGNORE` folds and blob lookups -/

theorem find?_map_upsert (refs : List (String × String)) (name h : String) :
    ((refs.map (fun r => if r.1 == name then (name, h) else r)).find?
        (fun r => r.1 == name))
      = if refs.any (fun r => r.1 == name) then some (name, h) else none := by
  induction refs with
  | nil => rfl
  | cons r rs ih =>
    by_cases hr : r.1 == name
    · simp only [List.map_cons, if_pos hr, List.any_cons, hr, Bool.true_or, if_pos]
      rw [List.find?_cons_of_pos _ (by simp)]
    · simp only [List.map_cons, if_neg hr, List.any_cons, hr, Bool.false_or]
      rw [List.find?_cons_of_neg _ (by simpa using hr)]
      exact ih

theorem find_upsertRef (refs : List (String × String)) (name h : String) :
    (upsertRef refs name h).find? (fun r => r.1 == name) = some (name, h) := by
  unfold upsertRef
  by_cases hany : refs.any (fun r => r.1 == name)
  · rw [if_pos hany, find?_map_upsert, if_pos hany]
  · rw [if_neg hany]
    have hnone : refs.find? (fun r => r.1 == name) = none := by
      rw [List.find?_eq_none]
      intro x hx
      have := (List.any_eq_false.mp (Bool.eq_false_iff.mpr hany)) x hx
      simpa using this
    rw [find?_append_none _ _ _ hnone]
    rw [List.find?_cons_of_pos _ (by simp)]

theorem foldl_insertIgnore_fresh {α : Type} (conflict : α → α → Bool)
    (rows : List α) (acc : List α)
    (hrows : List.Pairwise (fun a b => conflict a b = false) rows)
    (hacc : ∀ r ∈ rows, ∀ a ∈ acc, conflict a r = false) :
    rows.foldl (insertIgnore conflict) acc = acc ++ rows := by
  induction rows generalizing acc with
  | nil => simp
  | cons r rs ih =>
    have hstep : insertIgnore conflict acc r = acc ++ [r] := by
      unfold insertIgnore
      rw [if_neg (by
        intro hcon
        obtain ⟨a, ha, hca⟩ := List.any_eq_true.mp hcon
        rw [hacc r (List.mem_cons_self r rs) a ha] at hca
        cases hca)]
    have hacc2 : ∀ r2 ∈ rs, ∀ a ∈ acc ++ [r], conflict a r2 = false := by
      intro r2 hr2 a ha
      rcases List.mem_append.mp ha with hmem | hmem
      · exact hacc r2 (List.mem_cons_of_mem r hr2) a hmem
      · rcases List.mem_singleton.mp hmem with rfl
        exact (List.pairwise_cons.mp hrows).1 r2 hr2
    show rs.foldl (insertIgnore conflict) (insertIgnore conflict acc r) = acc ++ r :: rs
    rw [hstep, ih (acc ++ [r]) (List.pairwise_cons.mp hrows).2 hacc2]
    simp

theorem mem_foldl_insertIgnore {α : Type} (conflict : α → α → Bool)
    (rows acc : List α) (x : α)
    (hx : x ∈ rows.foldl (insertIgnore conflict) acc) : x ∈ acc ∨ x ∈ rows := by
  induction rows generalizing acc with
  | nil => exact Or.inl hx
  | cons r rs ih =>
    rcases ih (insertIgnore conflict acc r) hx with hmem | hmem
    · unfold insertIgnore at hmem
      split at hmem
      · exact Or.inl hmem
      · rcases List.mem_append.mp hmem with h1 | h1
        · exact Or.inl h1
        · rcases List.mem_singleton.mp h1 with rfl
          exact Or.inr (List.mem_cons_self x rs)
    · exact Or.inr (List.mem_cons_of_mem r hmem)

theorem subset_foldl_insertIgnore {α : Type} (conflict : α → α → Bool)
    (rows acc : List α) (x : α) (hx : x ∈ acc) :
    x ∈ rows.foldl (insertIgnore conflict) acc := by
  induction rows generalizing acc with
  | nil => exact hx
  | cons r rs ih =>
    apply ih
    unfold insertIgnore
    split
    · exact hx
    · exact List.mem_append.mpr (Or.inl hx)

theorem exists_key_foldl_insertIgnore (rows acc : List (String × String))
    (p : String × String) (hp : p ∈ rows) :
    ∃ q ∈ rows.foldl (insertIgnore (fun a b => a.1 == b.1)) acc, q.1 = p.1 := by
  induction rows generalizing acc with
  | nil => cases hp
  | cons r rs ih =>
    rcases List.mem_cons.mp hp with rfl | hmem
    · by_cases hany : acc.any (fun x => x.1 == p.1)
      · obtain ⟨a, ha, hpa⟩ := List.any_eq_true.mp hany
        refine ⟨a, subset_foldl_insertIgnore _ rs _ a ?_, by simpa using hpa⟩
        unfold insertIgnore
        split <;> simp [ha]
      · refine ⟨p, subset_foldl_insertIgnore _ rs _ p ?_, rfl⟩
        unfold insertIgnore
        rw [if_neg hany]
        exact List.mem_append.mpr (Or.inr (List.mem_singleton.mpr rfl))
    · exact ih (insertIgnore (fun a b => a.1 == b.1) acc r) hmem

/-- Looking up any inserted key in the blob table built by the
`INSERT OR IGNORE` fold recovers its value, provided equal keys carry equal
values (content addressing). -/
theorem blobLookup_foldl (pairs : List (String × String))
    (hcoh : ∀ p ∈ pairs, ∀ q ∈ pairs, p.1 = q.1 → p.2 = q.2)
    (p : String × String) (hp : p ∈ pairs) :
    blobLookup (pairs.foldl (insertIgnore (fun a b => a.1 == b.1)) []) p.1
      = some p.2 := by
  obtain ⟨q, hq, hqkey⟩ := exists_key_foldl_insertIgnore pairs [] p hp
  unfold blobLookup
  have hsome : ((pairs.foldl (insertIgnore (fun a b => a.1 == b.1)) []).find?
      (fun b => b.1 == p.1)).isSome := by
    rw [List.find?_isSome]
    exact ⟨q, hq, by simpa using hqkey⟩
  rcases hfind : (pairs.foldl (insertIgnore (fun a b => a.1 == b.1)) []).find?
      (fun b => b.1 == p.1) with _ | y
  · rw [hfind] at hsome; cases hsome
  · have hykey : y.1 = p.1 := by
      have := List.find?_some hfind
      simpa using this
    have hymem : y ∈ pairs := by
      rcases mem_foldl_insertIgnore _ pairs [] y (List.mem_of_find?_eq_some hfind)
        with hmem | hmem
      · cases hmem
      · exact hmem
    have : y.2 = p.2 := hcoh y hymem p hp hykey
    rw [hfind, Option.map_some', this]

/-! ### Order and join lemmas for the round trip -/

theorem lex_strict_le (d1 d2 c1 c2 : String)
    (h : (strLtB d1 d2 || (d1 == d2 && strLtB c1 c2)) = true) :
    (strLtB d1 d2 || (d1 == d2 && strLeB c1 c2)) = true := by
  rw [Bool.or_eq_true] at h
  rcases h with h1 | h1
  · rw [h1]; rfl
  · rw [Bool.and_eq_true] at h1
    obtain ⟨h2, h3⟩ := h1
    rw [h2, strLtB_le c1 c2 h3]
    simp

theorem strLtB_ne (a b : String) (h : strLtB a b = true) : a ≠ b := by
  intro heq
  subst heq
  rw [show strLtB a a = charListLtB a.data a.data from rfl, charListLtB_irrefl] at h
  cases h

theorem eq_of_mem_mem_pairwise_ne {α : Type} (key : α → String) (l : List α)
    (hpair : List.Pairwise (fun a b => key a ≠ key b) l)
    (x y : α) (hx : x ∈ l) (hy : y ∈ l) (hkey : key x = key y) : x = y := by
  induction l with
  | nil => cases hx
  | cons z zs ih =>
    obtain ⟨hz, hzs⟩ := List.pairwise_cons.mp hpair
    rcases List.mem_cons.mp hx with rfl | hx2
    · rcases List.mem_cons.mp hy with rfl | hy2
      · rfl
      · exact absurd hkey (hz y hy2)
    · rcases List.mem_cons.mp hy with rfl | hy2
      · exact absurd hkey.symm (hz x hx2)
      · exact ih hzs hx2 hy2

theorem mem_treeEntries (docs : List DocRow) (chunks : List ChunkRow) (e : TreeEntry) :
    e ∈ treeEntriesOf docs chunks
      ↔ ∃ d ∈ docs, ∃ c ∈ chunks, c.doc_id = d.doc_id ∧ e = entryOf d c := by
  unfold treeEntriesOf
  rw [(List.perm_insertionSort entryRank _).mem_iff]
  rw [List.mem_flatten]
  constructor
  · rintro ⟨s, hs, hes⟩
    obtain ⟨d, hd, rfl⟩ := List.mem_map.mp hs
    obtain ⟨c, hc, rfl⟩ := List.mem_map.mp hes
    obtain ⟨hcmem, hcpred⟩ := List.mem_filter.mp hc
    exact ⟨d, hd, c, hcmem, by simpa using hcpred, rfl⟩
  · rintro ⟨d, hd, c, hc, hdc, rfl⟩
    refine ⟨(chunks.filter (fun c2 => c2.doc_id == d.doc_id)).map (entryOf d),
      List.mem_map_of_mem _ hd, ?_⟩
    exact List.mem_map_of_mem _ (List.mem_filter.mpr ⟨hc, by simpa using hdc⟩)

theorem titleByDoc_treeEntries (docs : List DocRow) (chunks : List ChunkRow)
    (d : DocRow) (hd : d ∈ docs)
    (hne : List.Pairwise (fun a b => a.doc_id ≠ b.doc_id) docs)
    (hcov : ∃ c ∈ chunks, c.doc_id = d.doc_id) :
    titleByDoc (treeEntriesOf docs chunks) d.doc_id = d.title := by
  obtain ⟨c, hc, hcd⟩ := hcov
  have hmem : entryOf d c ∈ treeEntriesOf docs chunks :=
    (mem_treeEntries docs chunks _).mpr ⟨d, hd, c, hc, hcd, rfl⟩
  have hsome : ((treeEntriesOf docs chunks).find?
      (fun e => e.doc_id == d.doc_id)).isSome := by
    rw [List.find?_isSome]
    exact ⟨entryOf d c, hmem, by simp [entryOf]⟩
  unfold titleByDoc
  rcases hfind : (treeEntriesOf docs chunks).find? (fun e => e.doc_id == d.doc_id)
      with _ | e1
  · rw [hfind] at hsome; cases hsome
  · have he1 : e1.doc_id = d.doc_id := by
      have := List.find?_some hfind
      simpa using this
    obtain ⟨d1, hd1, c1, _, _, rfl⟩ :=
      (mem_treeEntries docs chunks e1).mp (List.mem_of_find?_eq_some hfind)
    have hdocid : d1.doc_id = d.doc_id := he1
    have : d1 = d := eq_of_mem_mem_pairwise_ne (fun x => x.doc_id) docs hne d1 d hd1 hd hdocid
    subst this
    rw [hfind]
    rfl

theorem docBlobs_ok (blobs : List (String × String)) (rows : List TreeDocRow)
    (textOf : TreeDocRow → String)
    (h : ∀ r ∈ rows, blobLookup blobs r.blob_hash = some (textOf r)) :
    docBlobs blobs rows = .ok (rows.map (fun r => (r.doc_id, textOf r))) := by
  induction rows with
  | nil => rfl
  | cons r rs ih =>
    simp only [docBlobs]
    rw [h r (List.mem_cons_self r rs), ih (fun r2 hr2 => h r2 (List.mem_cons_of_mem r hr2))]
    rfl

theorem find?_doc_map (docs : List DocRow) (g : DocRow → String)
    (hne : List.Pairwise (fun a b => a.doc_id ≠ b.doc_id) docs)
    (d0 : DocRow) (h : d0 ∈ docs) :
    ((docs.map (fun d => (d.doc_id, g d))).find? (fun b => b.1 == d0.doc_id))
      = some (d0.doc_id, g d0) := by
  induction docs with
  | nil => cases h
  | cons d ds ih =>
    obtain ⟨hz, hzs⟩ := List.pairwise_cons.mp hne
    rcases List.mem_cons.mp h with rfl | hmem
    · rw [List.map_cons, List.find?_cons_of_pos _ (by simp)]
    · rw [List.map_cons, List.find?_cons_of_neg _ (by simpa using hz d0 hmem)]
      exact ih hzs hmem

theorem list_map_eq_self {α : Type} (l : List α) (f : α → α)
    (h : ∀ x ∈ l, f x = x) : l.map f = l := by
  induction l with
  | nil => rfl
  | cons x xs ih =>
    rw [List.map_cons, h x (List.mem_cons_self x xs),
      ih (fun y hy => h y (List.mem_cons_of_mem x hy))]

/-- Stepping `GitOps.materializeTree` when every lookup succeeds. -/
theorem materializeTree_run (st : IndexState) (treeHash : String)
    (entries : List TreeEntry) (docRows : List TreeDocRow)
    (chunkRows : List TreeChunkRow) (blobByDoc : List (String × String))
    (htree : st.trees.find? (fun t => t.1 == treeHash) = some (treeHash, entries))
    (hdocs : (st.tree_docs.filter
        (fun d => d.tree_hash == treeHash)).insertionSort treeDocRank = docRows)
    (hdocne : docRows.isEmpty = false)
    (hchunks : (st.tree_chunks.filter
        (fun c => c.tree_hash == treeHash)).insertionSort treeChunkRank = chunkRows)
    (hchunkne : chunkRows.isEmpty = false)
    (hblob : docBlobs st.blobs docRows = .ok blobByDoc) :
    materializeTree st treeHash = .ok
      (docRows.map (fun d =>
        ({ doc_id := d.doc_id, content_hash := d.content_hash,
           title := titleByDoc entries d.doc_id,
           updated_at := "1970-01-01T00:00:00.000Z" } : DocRow)),
       chunkRows.map (fun c =>
        ({ chunk_id := c.chunk_id, doc_id := c.doc_id,
           text := strSlice (((blobByDoc.find? (fun b => b.1 == c.doc_id)).map
             (fun b => b.2)).getD "") c.span_start c.span_end,
           span_start := some c.span_start, span_end := some c.span_end,
           content_hash := c.content_hash } : ChunkRow))) := by
  simp only [materializeTree]
  rw [htree]
  simp only [Option.map_some']
  rw [hdocs, hdocne, hchunks, hchunkne, hblob]
  simp

/-- Stepping `checkout_index` when the ref, the commit and the tree all
resolve. -/
theorem checkoutIndex_run (st : IndexState) (target commit treeHash : String)
    (newDocs : List DocRow) (newChunks : List ChunkRow)
    (href : st.refs.find? (fun r => r.1 == target) = some (target, commit))
    (hcommit : (st.commits.find? (fun c => c.commit_hash == commit)).map
        (fun c => c.tree_hash) = some treeHash)
    (hmat : materializeTree st treeHash = .ok (newDocs, newChunks)) :
    checkoutIndex st target = .ok
      { st with documents := newDocs, chunks := newChunks,
                chunks_fts := chunksFtsOf newChunks,
                refs := upsertRef st.refs "HEAD" commit } := by
  simp only [checkoutIndex]
  rw [href]
  simp only [Option.map_some']
  rw [hcommit]
  split
  · next heq => cases heq
  · next th heq =>
    injection heq with h
    subst h
    rw [hmat]

/-! ### The checkout round trip (C9) -/

/-- A concrete working state: one document (non-epoch `updated_at`), one
chunk covering its text. -/
def cexState0 : IndexState :=
  { documents := [⟨"A", "h", some "T", "2024-01-01T00:00:00.000Z"⟩],
    chunks := [⟨"c", "A", "hi", some 0, some 2, "hc"⟩],
    chunks_fts := ["hi"], trees := [], tree_docs := [], tree_chunks := [],
    blobs := [], commits := [], refs := [] }

/-- The state after `commit_index` on `cexState0` (constant digest, which the
checkout never has to invert here). -/
def cexState1 : IndexState := (commitIndex (fun _ => "H") cexState0 "m" "main").2

/-- The committed state with the working tables wiped (the mutation). -/
def cexMutated : IndexState :=
  { cexState1 with documents := [], chunks := [], chunks_fts := [] }

/-- The `documents` table produced by `checkout_index` (empty on error). -/
def checkoutDocs (st : IndexState) (target : String) : List DocRow :=
  match checkoutIndex st target with | .ok st2 => st2.documents | .error _ => []

/-- The `chunks` table produced by `checkout_index` (empty on error). -/
def checkoutChunks (st : IndexState) (target : String) : List ChunkRow :=
  match checkoutIndex st target with | .ok st2 => st2.chunks | .error _ => []

/-- The `tree_docs` row `commit_index` writes for one document. -/
def tdRowOf (hashFn : String → String) (st0 : IndexState) (d : DocRow) : TreeDocRow :=
  { tree_hash := createTreeHash hashFn st0, doc_id := d.doc_id,
    blob_hash := hashFn (docTextOf st0.chunks d.doc_id), content_hash := d.content_hash }

/-- The `tree_chunks` row `commit_index` writes for one chunk. -/
def tcRowOf (hashFn : String → String) (st0 : IndexState) (c : ChunkRow) : TreeChunkRow :=
  { tree_hash := createTreeHash hashFn st0, chunk_id := c.chunk_id, doc_id := c.doc_id,
    span_start := c.span_start.getD 0, span_end := c.span_end.getD c.text.length,
    content_hash := c.content_hash, chunker_id := "legacy" }

/-- C9, counterexample: commit the one-document state `cexState0`
(`updated_at = "2024-01-01T00:00:00.000Z"`), wipe the working tables, check
out `HEAD`.  The chunk row comes back exactly, but the document row comes
back with `updated_at` reset to the epoch — `materializeTree` writes the
constant `'1970-01-01T00:00:00.000Z'` instead of the captured value, so the
working `documents` table does NOT equal the pre-mutation state. -/
theorem checkout_round_trip_counterexample :
    checkoutChunks cexMutated "HEAD" = cexState0.chunks
    ∧ checkoutDocs cexMutated "HEAD"
        = [⟨"A", "h", some "T", "1970-01-01T00:00:00.000Z"⟩]
    ∧ checkoutDocs cexMutated "HEAD" ≠ cexState0.documents := by
  refine ⟨by decide, by decide, by decide⟩

/-- C9, amended: the checkout round trip does restore the captured state
exactly when the captured state is itself a checkout fixed point: every
document already carries the epoch `updated_at` and has at least one chunk,
every chunk names an existing document and carries explicit spans consistent
with its text (`span_end = span_start + text.length`) that do not overlap
within a document, identifiers are unique and the tables are stored in key
order, the content-addressed tables start empty, and the digest is
injective.  Then committing, arbitrarily mutating the working tables and
checking out `HEAD` restores `documents`, `chunks` and `chunks_fts`
(kept in sync with `chunks`), and re-deriving the tree of the restored
state returns the committed tree hash. -/
theorem checkout_round_trip_restores
    (hashFn : String → String) (hinj : Function.Injective hashFn)
    (st0 : IndexState) (message branch : String)
    (mutDocs : List DocRow) (mutChunks : List ChunkRow) (mutFts : List String)
    (htrees0 : st0.trees = []) (htdocs0 : st0.tree_docs = [])
    (htchunks0 : st0.tree_chunks = []) (hblobs0 : st0.blobs = [])
    (hcommits0 : st0.commits = [])
    (hdocs_ne : st0.documents ≠ [])
    (hdocs_sorted : List.Pairwise
      (fun a b => strLtB a.doc_id b.doc_id = true) st0.documents)
    (hchunks_sorted : List.Pairwise (fun a b =>
      (strLtB a.doc_id b.doc_id
        || (a.doc_id == b.doc_id && strLtB a.chunk_id b.chunk_id)) = true) st0.chunks)
    (hchunk_ids : List.Pairwise (fun a b => a.chunk_id ≠ b.chunk_id) st0.chunks)
    (hfk : ∀ c ∈ st0.chunks, ∃ d ∈ st0.documents, d.doc_id = c.doc_id)
    (hcov : ∀ d ∈ st0.documents, ∃ c ∈ st0.chunks, c.doc_id = d.doc_id)
    (hepoch : ∀ d ∈ st0.documents, d.updated_at = "1970-01-01T00:00:00.000Z")
    (hspan : ∀ c ∈ st0.chunks, ∃ s,
      c.span_start = some s ∧ c.span_end = some (s + c.text.length))
    (hdisj : List.Pairwise (fun a b =>
      a.doc_id ≠ b.doc_id ∨ spansApart (normChunk a) (normChunk b)) st0.chunks)
    (hfts : st0.chunks_fts = chunksFtsOf st0.chunks) :
    ∃ st2,
      checkoutIndex
        { (commitIndex hashFn st0 message branch).2 with
          documents := mutDocs, chunks := mutChunks, chunks_fts := mutFts }
        "HEAD" = .ok st2
      ∧ st2.documents = st0.documents
      ∧ st2.chunks = st0.chunks
      ∧ st2.chunks_fts = st0.chunks_fts
      ∧ createTreeHash hashFn st2 = (commitIndex hashFn st0 message branch).1.2 := by
  set st1 := (commitIndex hashFn st0 message branch).2 with hst1
  set mutated := { st1 with
    documents := mutDocs, chunks := mutChunks, chunks_fts := mutFts } with hmut
  set ch := (commitIndex hashFn st0 message branch).1.1 with hch
  -- order facts
  have hne_docs : List.Pairwise (fun a b : DocRow => a.doc_id ≠ b.doc_id) st0.documents :=
    hdocs_sorted.imp (fun h => strLtB_ne _ _ h)
  have hsortd : st0.documents.insertionSort docIdRank = st0.documents :=
    List.Sorted.insertionSort_eq (hdocs_sorted.imp (fun h => strLtB_le _ _ h))
  have hsortc : st0.chunks.insertionSort chunkRank = st0.chunks :=
    List.Sorted.insertionSort_eq (hchunks_sorted.imp (fun h => lex_strict_le _ _ _ _ h))
  -- the committed tables
  have htreesM : mutated.trees
      = insertIgnore (fun a b => a.1 == b.1) st0.trees
        (createTreeHash hashFn st0, treeEntriesOf st0.documents st0.chunks) := rfl
  rw [htrees0] at htreesM
  have htreesM2 : mutated.trees
      = [(createTreeHash hashFn st0, treeEntriesOf st0.documents st0.chunks)] := by
    rw [htreesM]; rfl
  have hfreshTD : List.Pairwise
      (fun a b : TreeDocRow => (a.tree_hash == b.tree_hash && a.doc_id == b.doc_id) = false)
      (st0.documents.map (tdRowOf hashFn st0)) := by
    refine List.pairwise_map.mpr ?_
    refine hne_docs.imp ?_
    intro a b h
    simp [tdRowOf, h]
  have htdM : mutated.tree_docs
      = ((st0.documents.insertionSort docIdRank).map (tdRowOf hashFn st0)).foldl
        (insertIgnore (fun a b => a.tree_hash == b.tree_hash && a.doc_id == b.doc_id))
        st0.tree_docs := rfl
  rw [hsortd, htdocs0,
    foldl_insertIgnore_fresh _ _ _ hfreshTD (fun r _ a ha => absurd ha (List.not_mem_nil a)),
    List.nil_append] at htdM
  have hfreshTC : List.Pairwise
      (fun a b : TreeChunkRow => (a.tree_hash == b.tree_hash && a.chunk_id == b.chunk_id) = false)
      (st0.chunks.map (tcRowOf hashFn st0)) := by
    refine List.pairwise_map.mpr ?_
    refine hchunk_ids.imp ?_
    intro a b h
    simp [tcRowOf, h]
  have htcM : mutated.tree_chunks
      = ((st0.chunks.insertionSort chunkRank).map (tcRowOf hashFn st0)).foldl
        (insertIgnore (fun a b => a.tree_hash == b.tree_hash && a.chunk_id == b.chunk_id))
        st0.tree_chunks := rfl
  rw [hsortc, htchunks0,
    foldl_insertIgnore_fresh _ _ _ hfreshTC (fun r _ a ha => absurd ha (List.not_mem_nil a)),
    List.nil_append] at htcM
  have hblM : mutated.blobs
      = ((st0.documents.insertionSort docIdRank).map (fun d =>
          (hashFn (docTextOf st0.chunks d.doc_id), docTextOf st0.chunks d.doc_id))).foldl
        (insertIgnore (fun a b => a.1 == b.1)) st0.blobs := rfl
  rw [hsortd, hblobs0] at hblM
  -- the tree lookup
  have htreeF : mutated.trees.find? (fun t => t.1 == createTreeHash hashFn st0)
      = some (createTreeHash hashFn st0, treeEntriesOf st0.documents st0.chunks) := by
    rw [htreesM2, List.find?_cons_of_pos _ (by simp)]
  -- the tree_docs payload
  have hfilterTD : (st0.documents.map (tdRowOf hashFn st0)).filter
      (fun d => d.tree_hash == createTreeHash hashFn st0)
      = st0.documents.map (tdRowOf hashFn st0) := by
    refine List.filter_eq_self.mpr ?_
    intro r hr
    obtain ⟨d, hd, rfl⟩ := List.mem_map.mp hr
    simp [tdRowOf]
  have hsortTD : (st0.documents.map (tdRowOf hashFn st0)).insertionSort treeDocRank
      = st0.documents.map (tdRowOf hashFn st0) := by
    refine List.Sorted.insertionSort_eq ?_
    refine List.pairwise_map.mpr ?_
    refine hdocs_sorted.imp ?_
    intro a b h
    exact strLtB_le _ _ h
  have hdocsArg : (mutated.tree_docs.filter
      (fun d => d.tree_hash == createTreeHash hashFn st0)).insertionSort treeDocRank
      = st0.documents.map (tdRowOf hashFn st0) := by
    rw [htdM, hfilterTD, hsortTD]
  have hdocneM : (st0.documents.map (tdRowOf hashFn st0)).isEmpty = false := by
    cases hd : st0.documents with
    | nil => exact absurd hd hdocs_ne
    | cons a l => rfl
  -- the tree_chunks payload
  have hfilterTC : (st0.chunks.map (tcRowOf hashFn st0)).filter
      (fun c => c.tree_hash == createTreeHash hashFn st0)
      = st0.chunks.map (tcRowOf hashFn st0) := by
    refine List.filter_eq_self.mpr ?_
    intro r hr
    obtain ⟨c, hc, rfl⟩ := List.mem_map.mp hr
    simp [tcRowOf]
  have hsortTC : (st0.chunks.map (tcRowOf hashFn st0)).insertionSort treeChunkRank
      = st0.chunks.map (tcRowOf hashFn st0) := by
    refine List.Sorted.insertionSort_eq ?_
    refine List.pairwise_map.mpr ?_
    refine hchunks_sorted.imp ?_
    intro a b h
    exact lex_strict_le _ _ _ _ h
  have hchunksArg : (mutated.tree_chunks.filter
      (fun c => c.tree_hash == createTreeHash hashFn st0)).insertionSort treeChunkRank
      = st0.chunks.map (tcRowOf hashFn st0) := by
    rw [htcM, hfilterTC, hsortTC]
  have hchunks_ne : st0.chunks ≠ [] := by
    cases hd : st0.documents with
    | nil => exact absurd hd hdocs_ne
    | cons a l =>
      obtain ⟨c, hc, _⟩ := hcov a (hd ▸ List.mem_cons_self a l)
      intro hcn
      rw [hcn] at hc
      cases hc
  have hchunkneM : (st0.chunks.map (tcRowOf hashFn st0)).isEmpty = false := by
    cases hd : st0.chunks with
    | nil => exact absurd hd hchunks_ne
    | cons a l => rfl
  -- the blob lookups
  have hpairs_coh : ∀ p ∈ st0.documents.map (fun d =>
        (hashFn (docTextOf st0.chunks d.doc_id), docTextOf st0.chunks d.doc_id)),
      ∀ q ∈ st0.documents.map (fun d =>
        (hashFn (docTextOf st0.chunks d.doc_id), docTextOf st0.chunks d.doc_id)),
      p.1 = q.1 → p.2 = q.2 := by
    intro p hp q hq hpq
    obtain ⟨d1, _, rfl⟩ := List.mem_map.mp hp
    obtain ⟨d2, _, rfl⟩ := List.mem_map.mp hq
    exact hinj hpq
  have hdocblobs : docBlobs mutated.blobs (st0.documents.map (tdRowOf hashFn st0))
      = .ok ((st0.documents.map (tdRowOf hashFn st0)).map
          (fun r => (r.doc_id, docTextOf st0.chunks r.doc_id))) := by
    refine docBlobs_ok _ _ (fun r => docTextOf st0.chunks r.doc_id) ?_
    intro r hr
    obtain ⟨d, hd, rfl⟩ := List.mem_map.mp hr
    show blobLookup mutated.blobs (hashFn (docTextOf st0.chunks d.doc_id))
      = some (docTextOf st0.chunks d.doc_id)
    rw [hblM]
    exact blobLookup_foldl _ hpairs_coh
      (hashFn (docTextOf st0.chunks d.doc_id), docTextOf st0.chunks d.doc_id)
      (List.mem_map_of_mem _ hd)
  have hblobByDoc : (st0.documents.map (tdRowOf hashFn st0)).map
      (fun r => (r.doc_id, docTextOf st0.chunks r.doc_id))
      = st0.documents.map (fun d => (d.doc_id, docTextOf st0.chunks d.doc_id)) := by
    rw [List.map_map]
    rfl
  rw [hblobByDoc] at hdocblobs
  -- materialize
  have hmat := materializeTree_run mutated (createTreeHash hashFn st0)
    (treeEntriesOf st0.documents st0.chunks)
    (st0.documents.map (tdRowOf hashFn st0))
    (st0.chunks.map (tcRowOf hashFn st0))
    (st0.documents.map (fun d => (d.doc_id, docTextOf st0.chunks d.doc_id)))
    htreeF hdocsArg hdocneM hchunksArg hchunkneM hdocblobs
  -- the restored documents
  have hnewDocs : (st0.documents.map (tdRowOf hashFn st0)).map (fun d =>
      ({ doc_id := d.doc_id, content_hash := d.content_hash,
         title := titleByDoc (treeEntriesOf st0.documents st0.chunks) d.doc_id,
         updated_at := "1970-01-01T00:00:00.000Z" } : DocRow)) = st0.documents := by
    rw [List.map_map]
    refine list_map_eq_self _ _ ?_
    intro d hd
    have ht : titleByDoc (treeEntriesOf st0.documents st0.chunks) d.doc_id = d.title :=
      titleByDoc_treeEntries st0.documents st0.chunks d hd hne_docs (hcov d hd)
    have hu := hepoch d hd
    show ({ doc_id := (tdRowOf hashFn st0 d).doc_id,
            content_hash := (tdRowOf hashFn st0 d).content_hash,
            title := titleByDoc (treeEntriesOf st0.documents st0.chunks)
              (tdRowOf hashFn st0 d).doc_id,
            updated_at := "1970-01-01T00:00:00.000Z" } : DocRow) = d
    simp only [tdRowOf]
    rw [ht, ← hu]
  -- the restored chunks
  have hnewChunks : (st0.chunks.map (tcRowOf hashFn st0)).map (fun c =>
      ({ chunk_id := c.chunk_id, doc_id := c.doc_id,
         text := strSlice ((((st0.documents.map (fun d =>
             (d.doc_id, docTextOf st0.chunks d.doc_id))).find?
             (fun b => b.1 == c.doc_id)).map (fun b => b.2)).getD "")
           c.span_start c.span_end,
         span_start := some c.span_start, span_end := some c.span_end,
         content_hash := c.content_hash } : ChunkRow)) = st0.chunks := by
    rw [List.map_map]
    refine list_map_eq_self _ _ ?_
    intro c hc
    obtain ⟨s, hs1, hs2⟩ := hspan c hc
    obtain ⟨d, hd, hdid⟩ := hfk c hc
    have hfind0 : ((st0.documents.map (fun d =>
        (d.doc_id, docTextOf st0.chunks d.doc_id))).find?
        (fun b => b.1 == d.doc_id)) = some (d.doc_id, docTextOf st0.chunks d.doc_id) :=
      find?_doc_map st0.documents (fun d => docTextOf st0.chunks d.doc_id) hne_docs d hd
    rw [hdid] at hfind0
    have hdtx : docTextOf st0.chunks c.doc_id
        = buildDocumentText
          ((st0.chunks.filter (fun x => x.doc_id == c.doc_id)).map normChunk) := by
      unfold docTextOf
      rw [hsortc]
    have hmemf : c ∈ st0.chunks.filter (fun x => x.doc_id == c.doc_id) :=
      List.mem_filter.mpr ⟨hc, by simp⟩
    have hdisj2 : List.Pairwise spansApart
        ((st0.chunks.filter (fun x => x.doc_id == c.doc_id)).map normChunk) := by
      refine List.pairwise_map.mpr ?_
      refine (hdisj.sublist (List.filter_sublist _)).imp_of_mem ?_
      intro a b ha hb hr
      rcases hr with hne | hap
      · have ha2 : a.doc_id = c.doc_id := by simpa using (List.mem_filter.mp ha).2
        have hb2 : b.doc_id = c.doc_id := by simpa using (List.mem_filter.mp hb).2
        exact absurd (ha2.trans hb2.symm) hne
      · exact hap
    have hsl := buildDocumentText_slice _ (normChunk c) (List.mem_map_of_mem _ hmemf) hdisj2
    have hns : (normChunk c).s = s := by simp [normChunk, hs1]
    rw [hns] at hsl
    have hslice : strSlice (docTextOf st0.chunks c.doc_id) s (s + c.text.length) = c.text := by
      rw [hdtx]
      exact hsl
    show ({ chunk_id := (tcRowOf hashFn st0 c).chunk_id,
            doc_id := (tcRowOf hashFn st0 c).doc_id,
            text := strSlice ((((st0.documents.map (fun d =>
                (d.doc_id, docTextOf st0.chunks d.doc_id))).find?
                (fun b => b.1 == (tcRowOf hashFn st0 c).doc_id)).map (fun b => b.2)).getD "")
              (tcRowOf hashFn st0 c).span_start (tcRowOf hashFn st0 c).span_end,
            span_start := some (tcRowOf hashFn st0 c).span_start,
            span_end := some (tcRowOf hashFn st0 c).span_end,
            content_hash := (tcRowOf hashFn st0 c).content_hash } : ChunkRow) = c
    simp only [tcRowOf]
    rw [hs1, hs2]
    simp only [Option.getD_some]
    rw [hfind0]
    simp only [Option.map_some', Option.getD_some]
    rw [hslice, ← hs1, ← hs2]
  rw [hnewDocs, hnewChunks] at hmat
  -- the ref and commit lookups
  have hreffind : mutated.refs.find? (fun r => r.1 == "HEAD") = some ("HEAD", ch) := by
    show (upsertRef (upsertRef st0.refs branch ch) "HEAD" ch).find?
      (fun r => r.1 == "HEAD") = _
    exact find_upsertRef _ _ _
  have hcomM : mutated.commits
      = insertIgnore (fun a b => a.commit_hash == b.commit_hash) st0.commits
        ({ commit_hash := ch, tree_hash := createTreeHash hashFn st0,
           parents_json := canonicalize (.arr
             (((match ((st0.refs.find? (fun r => r.1 == branch)).map (fun r => r.2)) with
                | some t => [t] | none => []) : List String).map Json.str)),
           message := message,
           created_at := "1970-01-01T00:00:00.000Z" } : CommitRow) := rfl
  rw [hcommits0] at hcomM
  have hcomM2 : mutated.commits
      = [({ commit_hash := ch, tree_hash := createTreeHash hashFn st0,
            parents_json := canonicalize (.arr
              (((match ((st0.refs.find? (fun r => r.1 == branch)).map (fun r => r.2)) with
                 | some t => [t] | none => []) : List String).map Json.str)),
            message := message,
            created_at := "1970-01-01T00:00:00.000Z" } : CommitRow)] := by
    rw [hcomM]; rfl
  have hcommitfind : (mutated.commits.find? (fun c => c.commit_hash == ch)).map
      (fun c => c.tree_hash) = some (createTreeHash hashFn st0) := by
    rw [hcomM2, List.find?_cons_of_pos _ (by simp), Option.map_some']
  -- run the checkout
  have hrun := checkoutIndex_run mutated "HEAD" ch (createTreeHash hashFn st0)
    st0.documents st0.chunks hreffind hcommitfind hmat
  refine ⟨_, hrun, rfl, rfl, hfts.symm, rfl⟩

/-- A checkout fixed point: epoch `updated_at`, explicit consistent spans,
every table in key order, repo tables empty. -/
def roundTripState : IndexState :=
  { documents := [⟨"A", "h", some "T", "1970-01-01T00:00:00.000Z"⟩],
    chunks := [⟨"c", "A", "hi", some 0, some 2, "hc"⟩],
    chunks_fts := ["hi"], trees := [], tree_docs := [], tree_chunks := [],
    blobs := [], commits := [], refs := [] }

theorem checkout_round_trip_restores_witness :
    ∃ st2,
      checkoutIndex
        { (commitIndex (fun s => s) roundTripState "m" "main").2 with
          documents := [], chunks := [], chunks_fts := [] } "HEAD" = .ok st2
      ∧ st2.documents = roundTripState.documents
      ∧ st2.chunks = roundTripState.chunks
      ∧ st2.chunks_fts = roundTripState.chunks_fts
      ∧ createTreeHash (fun s => s) st2
          = (commitIndex (fun s => s) roundTripState "m" "main").1.2 :=
  checkout_round_trip_restores (fun s => s) (fun a b h => h) roundTripState "m" "main"
    [] [] [] rfl rfl rfl rfl rfl (by decide)
    (by simp [roundTripState]) (by simp [roundTripState]) (by simp [roundTripState])
    (by decide) (by decide) (by decide)
    (fun c hc => by
      simp only [roundTripState, List.mem_singleton] at hc
      subst hc
      exact ⟨0, rfl, rfl⟩)
    (by simp [roundTripState]) rfl

end Spec2Proof
